import Mathlib

/-!
Verification of the go-depmap dependency-graph core.

Shallow embedding of the connected-component analyzer
(`pkg/graph/subgraph.go`, `pkg/graph/graph.go`, `pkg/graph/types.go`) and of
the definition collector / reference resolver (`pkg/analyzer/analyzer.go`).

Modelling conventions:
* Go `map` iteration order is unspecified, so a map is embedded as the list of
  its entries in the (arbitrary) order an iteration yields them; map-ness
  (no duplicate keys) is a hypothesis where a claim needs it.
* Go `float64` arithmetic on scores is modelled over `ℝ`; the score of a
  subgraph is a function of its node count and edge count, so subgraphs store
  those two numbers and the real-valued score is derived from them.
* `sort.Slice` guarantees only that the result is sorted by the comparison
  function (it is not stable); it is modelled by insertion sort over a
  comparison that is proved to agree with the real-valued score order.
* Go's recursive `dfs` is embedded with an explicit fuel parameter; the
  top-level call supplies fuel larger than the number of ids in the graph,
  which is shown sufficient.
-/

namespace DepMap

/-! ## Score function, from computeSubgraphScore in pkg/graph/subgraph.go -/

/-- `computeSubgraphScore` from `pkg/graph/subgraph.go` (float64 modelled as ℝ).
`maxPossibleEdges = n*(n-1)` is computed in ℕ exactly as the Go `int`
expression (both give `0` for `n ≤ 1`). -/
noncomputable def computeSubgraphScore (nodeCount edgeCount : ℕ) : ℝ :=
  if nodeCount = 0 then 0
  else
    let nodeScore : ℝ := (nodeCount : ℝ) * Real.logb 2 ((nodeCount : ℝ) + 1)
    let edgeScore : ℝ := (edgeCount : ℝ) * 2
    let maxPossibleEdges : ℕ := nodeCount * (nodeCount - 1)
    if 0 < maxPossibleEdges then
      nodeScore + edgeScore +
        (edgeCount : ℝ) / (maxPossibleEdges : ℝ) * (nodeCount : ℝ) * 5
    else
      nodeScore + edgeScore

/-- The score function exactly as the specification states it (three cases on
`n`), used only to compare the code's score function against the spec. -/
noncomputable def specScore (n e : ℕ) : ℝ :=
  if n = 0 then 0
  else if n = 1 then (n : ℝ) * Real.logb 2 ((n : ℝ) + 1) + (e : ℝ) * 2
  else (n : ℝ) * Real.logb 2 ((n : ℝ) + 1) + (e : ℝ) * 2 +
    (e : ℝ) / ((n : ℝ) * ((n : ℝ) - 1)) * (n : ℝ) * 5

/-- Denominator of the rational part of the score of a component with `n`
nodes: `n - 1` when the density bonus applies, `1` otherwise. -/
def bonusDen (n : ℕ) : ℕ := if 2 ≤ n then n - 1 else 1

/-- Numerator of the rational part of the score over denominator
`bonusDen n`: the rational part is `2e + 5e/(n-1)` when `n ≥ 2` and `2e`
otherwise. -/
def bonusNum (n e : ℕ) : ℕ := if 2 ≤ n then 2 * e * (n - 1) + 5 * e else 2 * e

/-- Exact decision of `score (n₁,e₁) ≤ score (n₂,e₂)` by integer arithmetic:
both scores are `log2` of `(nᵢ+1)^nᵢ * 2^(aᵢ/bᵢ)`, and the comparison of
those positive reals is raised to the power `b₁*b₂` to clear the fractional
exponents. Proved to agree with the real-valued order in
`scoreLe_iff_score`. -/
def scoreLe (k₁ k₂ : ℕ × ℕ) : Bool :=
  decide
    ((k₁.1 + 1) ^ (k₁.1 * (bonusDen k₁.1 * bonusDen k₂.1)) *
        2 ^ (bonusNum k₁.1 k₁.2 * bonusDen k₂.1) ≤
      (k₂.1 + 1) ^ (k₂.1 * (bonusDen k₁.1 * bonusDen k₂.1)) *
        2 ^ (bonusNum k₂.1 k₂.2 * bonusDen k₁.1))

/-- The positive real whose base-2 logarithm is the score of a component with
`k.1` nodes and `k.2` edges (for `k.1 ≥ 1`). -/
noncomputable def scoreVal (k : ℕ × ℕ) : ℝ :=
  ((k.1 : ℝ) + 1) ^ k.1 * (2 : ℝ) ^ ((bonusNum k.1 k.2 : ℝ) / (bonusDen k.1 : ℝ))

/-! ## Data model, from pkg/graph/types.go

`DependencyGraph.Nodes` is the node map represented by the list of its keys in
iteration order (node payloads other than the analyzer-owned component fields
are irrelevant to the component analyzer); `Edges` is the edge map as the list
of its `source ↦ targets` entries in iteration order. -/

structure DependencyGraph where
  Nodes : List String
  Edges : List (String × List String)
deriving DecidableEq

/-- `Subgraph` from `pkg/graph/types.go`; the `Score` field is the derived
real `computeSubgraphScore NodeIDs.length EdgeCount` (see `Subgraph.scoreR`),
so it is not stored. -/
structure Subgraph where
  ID : ℕ
  NodeIDs : List String
  EdgeCount : ℕ
deriving DecidableEq

/-- The `Score` field of a `Subgraph`: the code always stores
`computeSubgraphScore(len(component), edgeCount)` there. -/
noncomputable def Subgraph.scoreR (s : Subgraph) : ℝ :=
  computeSubgraphScore s.NodeIDs.length s.EdgeCount

/-- The analyzer-owned mutable fields of a `Node`: `SubgraphID`, and
`SubgraphScore` represented by the pair of score arguments (node count,
edge count) that the code feeds to `computeSubgraphScore`. The Go zero value
is `SubgraphID = 0`, `SubgraphScore = 0.0`; `⟨0, 0, 0⟩` encodes it since
`computeSubgraphScore 0 0 = 0`. -/
structure NodeCompState where
  sgID : ℕ
  scoreN : ℕ
  scoreE : ℕ
deriving DecidableEq

/-- The `SubgraphScore` field encoded by a `NodeCompState`. -/
noncomputable def NodeCompState.scoreR (ns : NodeCompState) : ℝ :=
  computeSubgraphScore ns.scoreN ns.scoreE

/-- The analyzer-owned mutable state of a `DependencyGraph`: the `Subgraphs`
slice and every node's component fields (total over ids; ids outside the node
map are never read). -/
structure SubgraphState where
  Subgraphs : List Subgraph
  nodeState : String → NodeCompState

/-- The state of a freshly built graph: `Subgraphs` is nil and every node's
component fields hold the Go zero values. -/
def initState : SubgraphState := ⟨[], fun _ => ⟨0, 0, 0⟩⟩

/-- Point update of a total map (a Go map write). -/
def upd {α : Type} (f : String → α) (k : String) (v : α) : String → α :=
  fun x => if x = k then v else f x

/-- Point update of a partial map (a Go map write; the key becomes present). -/
def mput {α : Type} (f : String → Option α) (k : String) (v : α) :
    String → Option α :=
  fun x => if x = k then some v else f x

/-- `CountEdges` from `pkg/graph/types.go`: sum of the target-list lengths. -/
def CountEdges (g : DependencyGraph) : ℕ :=
  g.Edges.foldl (fun count p => count + p.2.length) 0

/-! ## Component analyzer, from ComputeSubgraphs in pkg/graph/subgraph.go -/

/-- `adjacency[nodeID] = make([]string, 0)` for every node key. -/
def adjInit (nodes : List String) : String → Option (List String) :=
  fun x => if x ∈ nodes then some [] else none

/-- Neighbor list read: a Go map read of a `[]string` value yields nil for an
absent key. -/
def nbList (adj : String → Option (List String)) (x : String) : List String :=
  (adj x).getD []

/-- The reverse-edge loop of `ComputeSubgraphs`: for each target of the entry,
append `source` to the target's adjacency list if the target is a key of the
adjacency map. -/
def addReverseEdges (adj : String → Option (List String)) (source : String) :
    List String → (String → Option (List String))
  | [] => adj
  | t :: ts =>
    addReverseEdges
      (match adj t with
       | some l => mput adj t (l ++ [source])
       | none => adj)
      source ts

/-- Processing one `source ↦ targets` entry of the edge map: append the
forward edges (creating the key if absent, as Go `append` on a nil map value
does), then the reverse edges. -/
def addEdgeEntry (adj : String → Option (List String)) (source : String)
    (targets : List String) : String → Option (List String) :=
  addReverseEdges (mput adj source (nbList adj source ++ targets)) source targets

/-- Fold of `addEdgeEntry` over the edge-map entries. -/
def buildAdjacencyAux (adj : String → Option (List String)) :
    List (String × List String) → (String → Option (List String))
  | [] => adj
  | p :: rest => buildAdjacencyAux (addEdgeEntry adj p.1 p.2) rest

/-- The undirected adjacency map built by `ComputeSubgraphs`. -/
def buildAdjacency (g : DependencyGraph) : String → Option (List String) :=
  buildAdjacencyAux (adjInit g.Nodes) g.Edges

/-- `dfs` from `pkg/graph/subgraph.go`: mark the node visited, append it to
the component, then recurse into each unvisited neighbor. The Go function
recurses without bound; the embedding carries fuel, consumed once per
recursive call, and the top-level call supplies more fuel than there are ids
in the graph. -/
def dfsF : ℕ → (String → Option (List String)) → String → List String →
    List String → List String × List String
  | 0, _, _, visited, component => (visited, component)
  | fuel + 1, adj, nodeID, visited, component =>
    (nbList adj nodeID).foldl
      (fun vc nb => if nb ∈ vc.1 then vc else dfsF fuel adj nb vc.1 vc.2)
      (nodeID :: visited, component ++ [nodeID])


/-- The neighbor loop of `dfs`, as a fold over the neighbor list (abbreviation
of the fold inside `dfsF`, for stating loop invariants). -/
def dfsFold (fuel : ℕ) (adj : String → Option (List String))
    (ns : List String) (vc : List String × List String) :
    List String × List String :=
  ns.foldl (fun vc nb => if nb ∈ vc.1 then vc else dfsF fuel adj nb vc.1 vc.2) vc

/-- Lookup in the edge map (`targets, exists := g.Edges[nid]`). -/
def lookupEdges : List (String × List String) → String → Option (List String)
  | [], _ => none
  | p :: rest, s => if p.1 = s then some p.2 else lookupEdges rest s

/-- The edge-counting loop of `ComputeSubgraphs`: for each member of the
component, count its targets that lie inside the component. -/
def countEdgesIn (g : DependencyGraph) (component : List String) : ℕ :=
  component.foldl
    (fun edgeCount nid =>
      match lookupEdges g.Edges nid with
      | some targets =>
        edgeCount + (targets.filter (fun t => decide (t ∈ component))).length
      | none => edgeCount)
    0

/-- The per-component node-field writes of the discovery loop:
`node.SubgraphID = subgraphID; node.SubgraphScore = subgraph.Score` for every
member that is a key of the node map. -/
def writeDiscovery (g : DependencyGraph) (sgID n e : ℕ) :
    List String → (String → NodeCompState) → (String → NodeCompState)
  | [], ns => ns
  | nid :: rest, ns =>
    writeDiscovery g sgID n e rest
      (if nid ∈ g.Nodes then upd ns nid ⟨sgID, n, e⟩ else ns)

/-- The discovery loop of `ComputeSubgraphs`: seed a DFS from each unvisited
node key in iteration order, forming one subgraph per seed, counting its
internal edges and writing the component fields of its member nodes. -/
def discoverLoop (g : DependencyGraph) (adj : String → Option (List String))
    (fuel : ℕ) :
    List String → List String → ℕ → (String → NodeCompState) →
    List Subgraph × List String × (String → NodeCompState)
  | [], visited, _, ns => ([], visited, ns)
  | nodeID :: rest, visited, sgID, ns =>
    if nodeID ∈ visited then discoverLoop g adj fuel rest visited sgID ns
    else
      let vc := dfsF fuel adj nodeID visited []
      let ec := countEdgesIn g vc.2
      let ns1 := writeDiscovery g sgID vc.2.length ec vc.2 ns
      let r := discoverLoop g adj fuel rest vc.1 (sgID + 1) ns1
      (⟨sgID, vc.2, ec⟩ :: r.1, r.2.1, r.2.2)

/-- Comparison used for `sort.Slice(..., Score i > Score j)`: `a` may precede
`b` exactly when `score b ≤ score a`, decided exactly by `scoreLe`. -/
def subGE (a b : Subgraph) : Prop :=
  scoreLe (b.NodeIDs.length, b.EdgeCount) (a.NodeIDs.length, a.EdgeCount) = true

instance : DecidableRel subGE := fun a b => by unfold subGE; infer_instance

/-- The re-labeling loop of `ComputeSubgraphs`: walk the sorted subgraph list,
set each subgraph's `ID` to its index and write that index into the
`SubgraphID` field of every member that is a key of the node map. -/
def reassignLoop (g : DependencyGraph) :
    ℕ → List Subgraph → (String → NodeCompState) →
    List Subgraph × (String → NodeCompState)
  | _, [], ns => ([], ns)
  | i, s :: rest, ns =>
    let ns1 := s.NodeIDs.foldl
      (fun m nid => if nid ∈ g.Nodes then upd m nid { m nid with sgID := i } else m)
      ns
    let r := reassignLoop g (i + 1) rest ns1
    ({ s with ID := i } :: r.1, r.2)

/-- All ids occurring in the graph representation; its length bounds the
number of ids a DFS can ever visit. -/
def idUniverse (g : DependencyGraph) : List String :=
  g.Nodes ++ (g.Edges.map (fun p => p.1 :: p.2)).flatten

/-- `ComputeSubgraphs` from `pkg/graph/subgraph.go`, as a transformation of
the analyzer-owned state: early return on an empty node map, otherwise build
the undirected adjacency, discover components by DFS in node-iteration order,
sort them by score descending and re-label. -/
def computeSubgraphs (g : DependencyGraph) (st : SubgraphState) : SubgraphState :=
  if g.Nodes = [] then st
  else
    let adj := buildAdjacency g
    let d := discoverLoop g adj ((idUniverse g).length + 1) g.Nodes [] 0 st.nodeState
    let sorted := List.insertionSort subGE d.1
    let r := reassignLoop g 0 sorted d.2.2
    ⟨r.1, r.2⟩

/-! ## Query operations, from pkg/graph/subgraph.go -/

/-- Linear scan of the subgraph list for a matching `ID`. -/
def findByID : List Subgraph → ℕ → Option Subgraph
  | [], _ => none
  | s :: rest, id => if s.ID = id then some s else findByID rest id

/-- `GetSubgraphByID`: first subgraph whose `ID` matches, else none. -/
def GetSubgraphByID (st : SubgraphState) (id : ℕ) : Option Subgraph :=
  findByID st.Subgraphs id

/-- `GetNodeSubgraph`: none for a node id absent from the node map, else the
subgraph whose `ID` is the node's `SubgraphID` field. -/
def GetNodeSubgraph (g : DependencyGraph) (st : SubgraphState)
    (nodeID : String) : Option Subgraph :=
  if nodeID ∈ g.Nodes then GetSubgraphByID st (st.nodeState nodeID).sgID
  else none

/-- `GetLargestSubgraph`: none when the subgraph list is empty, else its first
element. -/
def GetLargestSubgraph (st : SubgraphState) : Option Subgraph :=
  match st.Subgraphs with
  | [] => none
  | s :: _ => some s

/-! ## Specification-side connectivity relation (from the spec's words) -/

/-- One undirected step: a directed edge joins `x` and `y` in either
direction. Written from the spec's description of the undirected
interpretation of the edge set. -/
def undirStep (g : DependencyGraph) (x y : String) : Prop :=
  (∃ p ∈ g.Edges, p.1 = x ∧ y ∈ p.2) ∨ (∃ p ∈ g.Edges, p.1 = y ∧ x ∈ p.2)

/-- Connectivity ignoring edge direction, from the spec. -/
def UndirConn (g : DependencyGraph) : String → String → Prop :=
  Relation.ReflTransGen (undirStep g)

/-- Well-formedness of the embedded graph as claimed by the hypotheses of the
component claims: the node and edge lists represent maps (no duplicate keys)
and every id mentioned in the edge map is a key of the node map. -/
def ValidGraph (g : DependencyGraph) : Prop :=
  g.Nodes.Nodup ∧ (g.Edges.map Prod.fst).Nodup ∧
    ∀ p ∈ g.Edges, p.1 ∈ g.Nodes ∧ ∀ t ∈ p.2, t ∈ g.Nodes

instance (g : DependencyGraph) : Decidable (ValidGraph g) := by
  unfold ValidGraph; infer_instance

/-- One directed adjacency step: `y` occurs in the neighbor list of `x`. -/
def Step (adj : String → Option (List String)) (x y : String) : Prop :=
  y ∈ nbList adj x

/-- Reachability along adjacency steps. -/
def Reach (adj : String → Option (List String)) : String → String → Prop :=
  Relation.ReflTransGen (Step adj)

/-- The multiset of directed edges of the graph, as the list of
`(source, target)` pairs read off the edge-map entries. -/
def edgePairs (g : DependencyGraph) : List (String × String) :=
  (g.Edges.map (fun p => p.2.map (fun t => (p.1, t)))).flatten

/-! ## Analyzer, from pkg/analyzer/analyzer.go and pkg/graph/graph.go

The semantic program model is abstracted: a `types.Object` is an opaque
numeric identity; a declaration record carries the data the Go code reads off
the AST and the type information. The `File`/`Line` fields of a `Node` come
from `token.Position` bookkeeping that no claim touches, so they are not
modelled. -/

/-- Shape of the receiver type expression of a method declaration
(`ast.Expr`): a plain identifier, a star expression, or any other expression
shape (e.g. an `ast.IndexExpr` for a method on a generic type); the payload of
`other` is an opaque description the Go code never inspects. -/
inductive RecvExpr where
  | ident (name : String)
  | star (x : RecvExpr)
  | other (desc : String)
deriving DecidableEq

/-- `NodeKind` from `pkg/graph/types.go`. -/
inductive NodeKind where
  | function
  | method
  | typeDecl
deriving DecidableEq

/-- `Node` from `pkg/graph/types.go` (component fields and source position
omitted; the former are `NodeCompState`, the latter no claim touches). -/
structure Node where
  ID : String
  Name : String
  Kind : NodeKind
  Package : String
  Signature : String
deriving DecidableEq

/-- `CreateNode` from `pkg/graph/graph.go`:
`id := fmt.Sprintf("%s::%s", pkg.PkgPath, name)`. -/
def CreateNode (pkgPath name : String) (kind : NodeKind) (signature : String) :
    Node :=
  { ID := pkgPath ++ "::" ++ name, Name := name, Kind := kind,
    Package := pkgPath, Signature := signature }

/-- A declaration record as `ast.Inspect` yields it: a function declaration
(`obj` is `TypesInfo.Defs[x.Name]`, possibly nil; `recv` its receiver type
expression when it is a method; `uses` the resolved `TypesInfo.Uses` objects
of the identifiers in the declaration, in walk order), or one type spec of a
type declaration. -/
inductive GoDecl where
  | funcDecl (obj : Option ℕ) (name : String) (recv : Option RecvExpr)
      (sig : String) (uses : List ℕ)
  | typeDecl (obj : Option ℕ) (name : String) (sig : String)
deriving DecidableEq

/-- A loaded package: whether `pkg.Module` is non-nil, its `PkgPath`, and the
declarations of its syntax trees in inspection order. -/
structure GoPackage where
  hasModule : Bool
  pkgPath : String
  decls : List GoDecl
deriving DecidableEq

/-- `Analyzer` state: `projectObjects`, and the `Nodes`/`Edges` maps of the
graph under construction (`Edges` reads of absent keys yield nil). -/
structure AnalyzerState where
  projectObjects : ℕ → Option Node
  nodes : String → Option Node
  edges : String → List String

/-- The method-name formatting of `collectDefinitions`: a `(*Ident)` receiver
gives `(*R).M`, an `Ident` receiver gives `R.M`, and any other receiver
expression shape leaves the name unchanged (the Go code's type switches both
fail). -/
def formatMethodName (base : String) : RecvExpr → String
  | .star (.ident n) => "(*" ++ n ++ ")." ++ base
  | .ident n => n ++ "." ++ base
  | _ => base

/-- Processing one declaration in `collectDefinitions`: skip when the `Defs`
lookup is nil, otherwise create the node and store it in both
`projectObjects` and the graph's node map. -/
def collectDecl (a : AnalyzerState) (pkgPath : String) : GoDecl → AnalyzerState
  | .funcDecl obj fname recv sig _ =>
    match obj with
    | none => a
    | some o =>
      let kn : NodeKind × String :=
        match recv with
        | some recvType => (NodeKind.method, formatMethodName fname recvType)
        | none => (NodeKind.function, fname)
      let node := CreateNode pkgPath kn.2 kn.1 sig
      { a with projectObjects := fun x => if x = o then some node else a.projectObjects x,
               nodes := fun s => if s = node.ID then some node else a.nodes s }
  | .typeDecl obj tname sig =>
    match obj with
    | none => a
    | some o =>
      let node := CreateNode pkgPath tname NodeKind.typeDecl sig
      { a with projectObjects := fun x => if x = o then some node else a.projectObjects x,
               nodes := fun s => if s = node.ID then some node else a.nodes s }

/-- Fold of `collectDecl` over one package's declarations. -/
def collectPkg (a : AnalyzerState) (pkgPath : String) : List GoDecl → AnalyzerState
  | [] => a
  | d :: rest => collectPkg (collectDecl a pkgPath d) pkgPath rest

/-- `collectDefinitions`: scan every package with a module, in order. -/
def collectDefinitions (a : AnalyzerState) : List GoPackage → AnalyzerState
  | [] => a
  | p :: rest =>
    collectDefinitions (if p.hasModule then collectPkg a p.pkgPath p.decls else a) rest

/-- The `addDep` closure of `analyzeDependencies`: resolve the used object;
drop it unless it is a project definition; drop self-references and targets
already seen for this source; otherwise append the edge and remember the
target. State: the edge map and the `seenDeps` set (as a list). -/
def addDep (source : Node) (po : ℕ → Option Node)
    (st : (String → List String) × List String) (tObj : ℕ) :
    (String → List String) × List String :=
  match po tObj with
  | none => st
  | some target =>
    if target.ID = source.ID then st
    else if target.ID ∈ st.2 then st
    else (upd st.1 source.ID (st.1 source.ID ++ [target.ID]), target.ID :: st.2)

/-- Processing one declaration in `analyzeDependencies`: only function
declarations whose `Defs` object is a known project definition contribute;
their used identifiers are folded through `addDep` with a fresh `seenDeps`. -/
def analyzeDecl (a : AnalyzerState) : GoDecl → AnalyzerState
  | .funcDecl obj _ _ _ uses =>
    match obj with
    | none => a
    | some o =>
      match a.projectObjects o with
      | none => a
      | some src =>
        let r := uses.foldl (addDep src a.projectObjects) (a.edges, [])
        { a with edges := r.1 }
  | .typeDecl _ _ _ => a

/-- Fold of `analyzeDecl` over one package's declarations. -/
def analyzePkg (a : AnalyzerState) : List GoDecl → AnalyzerState
  | [] => a
  | d :: rest => analyzePkg (analyzeDecl a d) rest

/-- `analyzeDependencies`: scan every package with a module, in order. -/
def analyzeDependencies (a : AnalyzerState) : List GoPackage → AnalyzerState
  | [] => a
  | p :: rest =>
    analyzeDependencies (if p.hasModule then analyzePkg a p.decls else a) rest

/-- The state held by a fresh `Analyzer` (`NewDependencyGraph`). -/
def newAnalyzerState : AnalyzerState :=
  ⟨fun _ => none, fun _ => none, fun _ => []⟩

/-- `Analyze`: `collectDefinitions` then `analyzeDependencies` over the same
packages. -/
def Analyze (pkgs : List GoPackage) : AnalyzerState :=
  analyzeDependencies (collectDefinitions newAnalyzerState pkgs) pkgs

/-! ## Concrete inputs used by the claims' examples -/

/-- Components `{A,B,C}` (edges A→B, B→C) and `{D,E}` (edge D→E). -/
def gChain : DependencyGraph :=
  ⟨["A", "B", "C", "D", "E"], [("A", ["B"]), ("B", ["C"]), ("D", ["E"])]⟩

/-- Nodes `{A,B,C}` with edges A→B, B→C, C→A. -/
def gTriangle : DependencyGraph :=
  ⟨["A", "B", "C"], [("A", ["B"]), ("B", ["C"]), ("C", ["A"])]⟩

/-- `gChain` with node and edge iteration in a different order. -/
def gChainPerm : DependencyGraph :=
  ⟨["D", "C", "A", "E", "B"], [("D", ["E"]), ("A", ["B"]), ("B", ["C"])]⟩

/-- Three isolated nodes. -/
def gIsolated : DependencyGraph := ⟨["X", "Y", "Z"], []⟩

/-- A package `P` containing `func f` (whose body references `g`) and
`func g`. -/
def pkgDup1 : GoPackage :=
  ⟨true, "P", [.funcDecl (some 0) "f" none "func()" [2],
               .funcDecl (some 2) "g" none "func()" []]⟩

/-- A second load of package `P` (e.g. a build-configuration variant): its
`func f` is a distinct `types.Object` but yields the same node id `P::f`. -/
def pkgDup2 : GoPackage :=
  ⟨true, "P", [.funcDecl (some 1) "f" none "func()" [2]]⟩

/-- A package `Q` with a method on a generic type: the receiver type is an
`ast.IndexExpr` under the star, so the Go formatting type switch falls
through. -/
def pkgGeneric : GoPackage :=
  ⟨true, "Q",
    [.funcDecl (some 0) "M" (some (.star (.other "T[P]"))) "func()" []]⟩

/-- The node id of the source a function declaration contributes in the
dependency pass, given the collector's object map (empty when the `Defs`
object is nil or not a project definition). Used to state when no two scanned
definitions share a source id. -/
def declSourceID (po : ℕ → Option Node) : GoDecl → List String
  | .funcDecl (some o) _ _ _ _ =>
    match po o with
    | some src => [src.ID]
    | none => []
  | _ => []

/-- The source node ids of all function declarations the dependency pass
processes, in processing order. -/
def sourceIDs (po : ℕ → Option Node) (pkgs : List GoPackage) : List String :=
  (pkgs.map (fun p => if p.hasModule then
    (p.decls.map (declSourceID po)).flatten else [])).flatten

/-! ## Lemmas about the score order -/

lemma bonusDen_pos (n : ℕ) : 0 < bonusDen n := by
  unfold bonusDen
  split
  · omega
  · omega

lemma scoreVal_pos (k : ℕ × ℕ) : 0 < scoreVal k := by
  unfold scoreVal
  have h1 : (0 : ℝ) < ((k.1 : ℝ) + 1) ^ k.1 := by positivity
  have h2 : (0 : ℝ) < (2 : ℝ) ^ ((bonusNum k.1 k.2 : ℝ) / (bonusDen k.1 : ℝ)) :=
    Real.rpow_pos_of_pos (by norm_num) _
  exact mul_pos h1 h2

lemma scoreVal_pow (k : ℕ × ℕ) (c : ℕ) :
    scoreVal k ^ (bonusDen k.1 * c) =
      ((k.1 : ℝ) + 1) ^ (k.1 * (bonusDen k.1 * c)) *
        (2 : ℝ) ^ (bonusNum k.1 k.2 * c) := by
  have hb : ((bonusDen k.1 : ℝ)) ≠ 0 := by
    exact_mod_cast (bonusDen_pos k.1).ne'
  have h2 : (0 : ℝ) ≤ 2 := by norm_num
  have key : ((2 : ℝ) ^ ((bonusNum k.1 k.2 : ℝ) / (bonusDen k.1 : ℝ))) ^ (bonusDen k.1 * c) =
      (2 : ℝ) ^ (bonusNum k.1 k.2 * c) := by
    rw [← Real.rpow_natCast ((2 : ℝ) ^ ((bonusNum k.1 k.2 : ℝ) / (bonusDen k.1 : ℝ))) (bonusDen k.1 * c),
      ← Real.rpow_mul h2,
      ← Real.rpow_natCast (2 : ℝ) (bonusNum k.1 k.2 * c)]
    congr 1
    push_cast
    field_simp
    ring
  unfold scoreVal
  rw [mul_pow, ← pow_mul, key]

lemma computeSubgraphScore_eq_logb (n e : ℕ) (h : 1 ≤ n) :
    computeSubgraphScore n e = Real.logb 2 (scoreVal (n, e)) := by
  have hA : ((n : ℝ) + 1) ^ n ≠ 0 := by positivity
  have hB : (2 : ℝ) ^ ((bonusNum n e : ℝ) / (bonusDen n : ℝ)) ≠ 0 :=
    (Real.rpow_pos_of_pos (by norm_num) _).ne'
  unfold scoreVal
  rw [Real.logb_mul hA hB, Real.logb_pow,
    Real.logb_rpow (by norm_num : (0:ℝ) < 2) (by norm_num : (2:ℝ) ≠ 1)]
  rcases Nat.lt_or_ge n 2 with h2 | h2
  · interval_cases n
    unfold computeSubgraphScore bonusNum bonusDen
    norm_num
    ring
  · have hn0 : n ≠ 0 := by omega
    have hpos : 0 < n * (n - 1) := by
      have h1 : 1 ≤ n - 1 := by omega
      exact Nat.mul_pos (by omega) h1
    have h2' : 2 ≤ n := h2
    simp only [computeSubgraphScore, bonusNum, bonusDen, if_neg hn0, if_pos hpos, if_pos h2']
    have hc1 : ((n * (n - 1) : ℕ) : ℝ) = (n : ℝ) * ((n : ℝ) - 1) := by
      push_cast [Nat.cast_sub (by omega : 1 ≤ n)]
      ring
    have hc2 : ((2 * e * (n - 1) + 5 * e : ℕ) : ℝ) =
        2 * (e : ℝ) * ((n : ℝ) - 1) + 5 * (e : ℝ) := by
      push_cast [Nat.cast_sub (by omega : 1 ≤ n)]
      ring
    rw [hc1, hc2]
    have hn : (n : ℝ) ≠ 0 := by exact_mod_cast hn0
    have hn1 : (n : ℝ) - 1 ≠ 0 := by
      have h3 : (2 : ℝ) ≤ (n : ℝ) := by exact_mod_cast h2
      nlinarith
    field_simp
    ring

lemma scoreLe_iff_val (k₁ k₂ : ℕ × ℕ) :
    scoreLe k₁ k₂ = true ↔ scoreVal k₁ ≤ scoreVal k₂ := by
  unfold scoreLe
  rw [decide_eq_true_eq]
  have hne : bonusDen k₁.1 * bonusDen k₂.1 ≠ 0 :=
    Nat.mul_ne_zero (bonusDen_pos k₁.1).ne' (bonusDen_pos k₂.1).ne'
  rw [← pow_le_pow_iff_left₀ (scoreVal_pos k₁).le (scoreVal_pos k₂).le hne]
  rw [scoreVal_pow k₁ (bonusDen k₂.1)]
  have hcomm : bonusDen k₁.1 * bonusDen k₂.1 = bonusDen k₂.1 * bonusDen k₁.1 :=
    Nat.mul_comm _ _
  rw [hcomm, scoreVal_pow k₂ (bonusDen k₁.1), ← hcomm]
  have cast1 : (((k₁.1 + 1) ^ (k₁.1 * (bonusDen k₁.1 * bonusDen k₂.1)) *
      2 ^ (bonusNum k₁.1 k₁.2 * bonusDen k₂.1) : ℕ) : ℝ) =
      ((k₁.1 : ℝ) + 1) ^ (k₁.1 * (bonusDen k₁.1 * bonusDen k₂.1)) *
        (2 : ℝ) ^ (bonusNum k₁.1 k₁.2 * bonusDen k₂.1) := by
    push_cast; ring
  have cast2 : (((k₂.1 + 1) ^ (k₂.1 * (bonusDen k₁.1 * bonusDen k₂.1)) *
      2 ^ (bonusNum k₂.1 k₂.2 * bonusDen k₁.1) : ℕ) : ℝ) =
      ((k₂.1 : ℝ) + 1) ^ (k₂.1 * (bonusDen k₁.1 * bonusDen k₂.1)) *
        (2 : ℝ) ^ (bonusNum k₂.1 k₂.2 * bonusDen k₁.1) := by
    push_cast; ring
  rw [← cast1, ← cast2, Nat.cast_le]

lemma scoreLe_iff_score (n₁ e₁ n₂ e₂ : ℕ) (h₁ : 1 ≤ n₁) (h₂ : 1 ≤ n₂) :
    scoreLe (n₁, e₁) (n₂, e₂) = true ↔
      computeSubgraphScore n₁ e₁ ≤ computeSubgraphScore n₂ e₂ := by
  rw [computeSubgraphScore_eq_logb n₁ e₁ h₁, computeSubgraphScore_eq_logb n₂ e₂ h₂,
    Real.logb_le_logb (by norm_num : (1:ℝ) < 2) (scoreVal_pos _) (scoreVal_pos _),
    scoreLe_iff_val]

lemma scoreLe_total (k₁ k₂ : ℕ × ℕ) : scoreLe k₁ k₂ = true ∨ scoreLe k₂ k₁ = true := by
  rw [scoreLe_iff_val, scoreLe_iff_val]
  exact le_total _ _

lemma scoreLe_trans {k₁ k₂ k₃ : ℕ × ℕ} (h₁ : scoreLe k₁ k₂ = true)
    (h₂ : scoreLe k₂ k₃ = true) : scoreLe k₁ k₃ = true := by
  rw [scoreLe_iff_val] at h₁ h₂ ⊢
  exact le_trans h₁ h₂

instance : IsTotal Subgraph subGE :=
  ⟨fun a b => (scoreLe_total _ _).symm⟩

instance : IsTrans Subgraph subGE :=
  ⟨fun _ _ _ h₁ h₂ => scoreLe_trans h₂ h₁⟩

lemma computeSubgraphScore_one_zero : computeSubgraphScore 1 0 = 1 := by
  unfold computeSubgraphScore
  norm_num [Real.logb_self_eq_one (by norm_num : (1:ℝ) < 2)]


/-! ## DFS correctness -/

lemma dfsFold_nil (fuel : ℕ) (adj : String → Option (List String))
    (vc : List String × List String) : dfsFold fuel adj [] vc = vc := rfl

lemma dfsFold_cons (fuel : ℕ) (adj : String → Option (List String))
    (nb : String) (rest : List String) (vc : List String × List String) :
    dfsFold fuel adj (nb :: rest) vc =
      dfsFold fuel adj rest
        (if nb ∈ vc.1 then vc else dfsF fuel adj nb vc.1 vc.2) := rfl

lemma dfsF_succ (fuel : ℕ) (adj : String → Option (List String)) (v : String)
    (vis comp : List String) :
    dfsF (fuel + 1) adj v vis comp =
      dfsFold fuel adj (nbList adj v) (v :: vis, comp ++ [v]) := rfl

lemma reach_mem_of_closed {adj : String → Option (List String)}
    {U : Finset String} (hadj : ∀ x y, Step adj x y → y ∈ U)
    {v x : String} (hv : v ∈ U) (h : Reach adj v x) : x ∈ U := by
  induction h with
  | refl => exact hv
  | tail _ hstep ih => exact hadj _ _ hstep

lemma reach_symm {adj : String → Option (List String)}
    (hsym : ∀ x y, Step adj x y → Step adj y x) {x y : String}
    (h : Reach adj x y) : Reach adj y x := by
  induction h with
  | refl => exact Relation.ReflTransGen.refl
  | tail _ hstep ih => exact Relation.ReflTransGen.head (hsym _ _ hstep) ih

lemma visited_closed_reach {adj : String → Option (List String)}
    {vis : List String} (hclosed : ∀ x ∈ vis, ∀ y, Step adj x y → y ∈ vis)
    {x y : String} (hx : x ∈ vis) (h : Reach adj x y) : y ∈ vis := by
  induction h with
  | refl => exact hx
  | tail _ hstep ih => exact hclosed _ ih _ hstep

lemma measure_le_of_subset (U : Finset String) {vis vis' : List String}
    (h : ∀ x ∈ vis, x ∈ vis') :
    (U.filter (fun x => x ∉ vis')).card ≤ (U.filter (fun x => x ∉ vis)).card := by
  apply Finset.card_le_card
  intro x hx
  rw [Finset.mem_filter] at hx ⊢
  exact ⟨hx.1, fun hmem => hx.2 (h x hmem)⟩

lemma measure_lt_cons (U : Finset String) {vis : List String} {v : String}
    (hvU : v ∈ U) (hv : v ∉ vis) :
    (U.filter (fun x => x ∉ (v :: vis))).card <
      (U.filter (fun x => x ∉ vis)).card := by
  apply Finset.card_lt_card
  constructor
  · intro x hx
    rw [Finset.mem_filter] at hx ⊢
    exact ⟨hx.1, fun hmem => hx.2 (List.mem_cons_of_mem v hmem)⟩
  · intro hsub
    have hv1 : v ∈ U.filter (fun x => x ∉ vis) := Finset.mem_filter.mpr ⟨hvU, hv⟩
    have hv2 := hsub hv1
    rw [Finset.mem_filter] at hv2
    exact hv2.2 (List.mem_cons_self v vis)

lemma dfsFold_spec (fuel : ℕ) (adj : String → Option (List String))
    (U : Finset String) (hadj : ∀ x y, Step adj x y → y ∈ U)
    (IH : ∀ v vis comp, v ∈ U → v ∉ vis →
      (U.filter (fun x => x ∉ vis)).card < fuel →
      ∃ δ : List String,
        (dfsF fuel adj v vis comp).2 = comp ++ δ ∧ δ.Nodup ∧
        (∀ x ∈ δ, x ∉ vis) ∧ v ∈ δ ∧
        (∀ x, x ∈ (dfsF fuel adj v vis comp).1 ↔ x ∈ δ ∨ x ∈ vis) ∧
        (∀ x ∈ δ, Reach adj v x) ∧
        (∀ x ∈ δ, ∀ y, Step adj x y → y ∈ (dfsF fuel adj v vis comp).1))
    (v : String) :
    ∀ (ns : List String) (vis comp : List String),
      (∀ n ∈ ns, Reach adj v n) → (∀ n ∈ ns, n ∈ U) →
      (U.filter (fun x => x ∉ vis)).card < fuel →
      ∃ δ : List String,
        (dfsFold fuel adj ns (vis, comp)).2 = comp ++ δ ∧ δ.Nodup ∧
        (∀ x ∈ δ, x ∉ vis) ∧
        (∀ x, x ∈ (dfsFold fuel adj ns (vis, comp)).1 ↔ x ∈ δ ∨ x ∈ vis) ∧
        (∀ x ∈ δ, Reach adj v x) ∧
        (∀ n ∈ ns, n ∈ (dfsFold fuel adj ns (vis, comp)).1) ∧
        (∀ x ∈ δ, ∀ y, Step adj x y → y ∈ (dfsFold fuel adj ns (vis, comp)).1) := by
  intro ns
  induction ns with
  | nil =>
    intro vis comp _ _ _
    refine ⟨[], by simp [dfsFold_nil], List.nodup_nil, by simp, ?_, by simp, by simp, by simp⟩
    intro x
    simp [dfsFold_nil]
  | cons nb rest ihrest =>
    intro vis comp hreach hU hfuel
    by_cases hmem : nb ∈ vis
    · rw [dfsFold_cons]
      rw [if_pos hmem]
      obtain ⟨δ, h1, h2, h3, h4, h5, h6, h7⟩ :=
        ihrest vis comp (fun n hn => hreach n (List.mem_cons_of_mem nb hn))
          (fun n hn => hU n (List.mem_cons_of_mem nb hn)) hfuel
      refine ⟨δ, h1, h2, h3, h4, h5, ?_, h7⟩
      intro n hn
      rcases List.mem_cons.mp hn with rfl | hn
      · exact (h4 n).mpr (Or.inr hmem)
      · exact h6 n hn
    · rw [dfsFold_cons, if_neg hmem]
      have hnbU : nb ∈ U := hU nb (List.mem_cons_self nb rest)
      obtain ⟨δ₁, i1, i2, i3, i4, i5, i6, i7⟩ := IH nb vis comp hnbU hmem hfuel
      set inner := dfsF fuel adj nb vis comp with hinner
      have hsub : ∀ x ∈ vis, x ∈ inner.1 := fun x hx => (i5 x).mpr (Or.inr hx)
      have hfuel2 : (U.filter (fun x => x ∉ inner.1)).card < fuel :=
        lt_of_le_of_lt (measure_le_of_subset U hsub) hfuel
      obtain ⟨δ₂, j1, j2, j3, j4, j5, j6, j7⟩ :=
        ihrest inner.1 inner.2 (fun n hn => hreach n (List.mem_cons_of_mem nb hn))
          (fun n hn => hU n (List.mem_cons_of_mem nb hn)) hfuel2
      have hfold : dfsFold fuel adj rest inner = dfsFold fuel adj rest (inner.1, inner.2) := by
        rw [Prod.mk.eta]
      rw [hfold]
      refine ⟨δ₁ ++ δ₂, ?_, ?_, ?_, ?_, ?_, ?_, ?_⟩
      · rw [j1, i1, List.append_assoc]
      · refine List.Nodup.append i2 j2 ?_
        intro a ha hb
        exact j3 a hb ((i5 a).mpr (Or.inl ha))
      · intro x hx
        rcases List.mem_append.mp hx with hx | hx
        · exact i3 x hx
        · intro hvis
          exact j3 x hx ((i5 x).mpr (Or.inr hvis))
      · intro x
        rw [j4 x, i5 x, List.mem_append]
        tauto
      · intro x hx
        rcases List.mem_append.mp hx with hx | hx
        · exact Relation.ReflTransGen.trans (hreach nb (List.mem_cons_self nb rest)) (i6 x hx)
        · exact j5 x hx
      · intro n hn
        rcases List.mem_cons.mp hn with rfl | hn
        · exact (j4 n).mpr (Or.inr ((i5 n).mpr (Or.inl i4)))
        · exact j6 n hn
      · intro x hx y hstep
        rcases List.mem_append.mp hx with hx | hx
        · exact (j4 y).mpr (Or.inr (i7 x hx y hstep))
        · exact j7 x hx y hstep

lemma dfsF_spec (adj : String → Option (List String)) (U : Finset String)
    (hadj : ∀ x y, Step adj x y → y ∈ U) :
    ∀ (fuel : ℕ) (v : String) (vis comp : List String), v ∈ U → v ∉ vis →
      (U.filter (fun x => x ∉ vis)).card < fuel →
      ∃ δ : List String,
        (dfsF fuel adj v vis comp).2 = comp ++ δ ∧ δ.Nodup ∧
        (∀ x ∈ δ, x ∉ vis) ∧ v ∈ δ ∧
        (∀ x, x ∈ (dfsF fuel adj v vis comp).1 ↔ x ∈ δ ∨ x ∈ vis) ∧
        (∀ x ∈ δ, Reach adj v x) ∧
        (∀ x ∈ δ, ∀ y, Step adj x y → y ∈ (dfsF fuel adj v vis comp).1) := by
  intro fuel
  induction fuel with
  | zero =>
    intro v vis comp _ _ hfuel
    exact absurd hfuel (Nat.not_lt_zero _)
  | succ f ih =>
    intro v vis comp hvU hnv hfuel
    have hmeas : (U.filter (fun x => x ∉ (v :: vis))).card < f := by
      have h1 := measure_lt_cons U hvU hnv
      have h2 : (U.filter (fun x => x ∉ vis)).card ≤ f := Nat.lt_succ_iff.mp hfuel
      omega
    obtain ⟨δf, f1, f2, f3, f4, f5, f6, f7⟩ :=
      dfsFold_spec f adj U hadj ih v (nbList adj v) (v :: vis) (comp ++ [v])
        (fun n hn => Relation.ReflTransGen.single hn)
        (fun n hn => hadj v n hn) hmeas
    rw [dfsF_succ]
    refine ⟨v :: δf, ?_, ?_, ?_, List.mem_cons_self v δf, ?_, ?_, ?_⟩
    · rw [f1, List.append_assoc]
      rfl
    · refine List.nodup_cons.mpr ⟨?_, f2⟩
      intro hv
      exact f3 v hv (List.mem_cons_self v vis)
    · intro x hx
      rcases List.mem_cons.mp hx with rfl | hx
      · exact hnv
      · intro hvis
        exact f3 x hx (List.mem_cons_of_mem v hvis)
    · intro x
      rw [f4 x, List.mem_cons, List.mem_cons]
      tauto
    · intro x hx
      rcases List.mem_cons.mp hx with rfl | hx
      · exact Relation.ReflTransGen.refl
      · exact f5 x hx
    · intro x hx y hstep
      rcases List.mem_cons.mp hx with rfl | hx
      · exact f6 y hstep
      · exact f7 x hx y hstep


lemma dfsF_class (adj : String → Option (List String)) (U : Finset String)
    (hadj : ∀ x y, Step adj x y → y ∈ U)
    (hsym : ∀ x y, Step adj x y → Step adj y x)
    (fuel : ℕ) (v : String) (vis comp : List String) (hvU : v ∈ U)
    (hnv : v ∉ vis)
    (hfuel : (U.filter (fun x => x ∉ vis)).card < fuel)
    (hclosed : ∀ x ∈ vis, ∀ y, Step adj x y → y ∈ vis) :
    ∃ δ : List String,
      (dfsF fuel adj v vis comp).2 = comp ++ δ ∧ δ.Nodup ∧
      (∀ x, x ∈ δ ↔ Reach adj v x) ∧
      (∀ x, x ∈ (dfsF fuel adj v vis comp).1 ↔ x ∈ δ ∨ x ∈ vis) ∧
      (∀ x ∈ δ, x ∉ vis) ∧
      (∀ x ∈ (dfsF fuel adj v vis comp).1, ∀ y, Step adj x y →
        y ∈ (dfsF fuel adj v vis comp).1) := by
  obtain ⟨δ, h1, h2, h3, h4, h5, h6, h7⟩ :=
    dfsF_spec adj U hadj fuel v vis comp hvU hnv hfuel
  have hclassSub : ∀ x, Reach adj v x → x ∈ (dfsF fuel adj v vis comp).1 := by
    intro x hx
    induction hx with
    | refl => exact (h5 v).mpr (Or.inl h4)
    | tail _ hstep ih =>
      rcases (h5 _).mp ih with hb | hb
      · exact h7 _ hb _ hstep
      · exact (h5 _).mpr (Or.inr (hclosed _ hb _ hstep))
  refine ⟨δ, h1, h2, ?_, h5, h3, ?_⟩
  · intro x
    constructor
    · exact h6 x
    · intro hx
      rcases (h5 x).mp (hclassSub x hx) with h | h
      · exact h
      · exfalso
        exact hnv (visited_closed_reach hclosed h (reach_symm hsym hx))
  · intro x hx y hstep
    rcases (h5 x).mp hx with h | h
    · exact h7 x h y hstep
    · exact (h5 y).mpr (Or.inr (hclosed x h y hstep))

/-! ## Characterization of the built adjacency map -/

lemma nbList_adjInit (nodes : List String) (x : String) :
    nbList (adjInit nodes) x = [] := by
  unfold nbList adjInit
  by_cases h : x ∈ nodes <;> simp [h]

lemma adjInit_isSome (nodes : List String) (x : String) :
    ((adjInit nodes) x).isSome ↔ x ∈ nodes := by
  unfold adjInit
  by_cases h : x ∈ nodes <;> simp [h]

lemma addReverseEdges_isSome (source : String) :
    ∀ (ts : List String) (adj : String → Option (List String)) (x : String),
      ((addReverseEdges adj source ts) x).isSome ↔ (adj x).isSome := by
  intro ts
  induction ts with
  | nil => intro adj x; rfl
  | cons t rest ih =>
    intro adj x
    rw [addReverseEdges]
    cases hadjt : adj t with
    | none => rw [ih]
    | some l =>
      rw [ih]
      unfold mput
      by_cases hxt : x = t
      · subst hxt
        simp [hadjt]
      · simp [hxt]

lemma addReverseEdges_mem (source : String) :
    ∀ (ts : List String) (adj : String → Option (List String)) (x y : String),
      y ∈ nbList (addReverseEdges adj source ts) x ↔
        y ∈ nbList adj x ∨ (y = source ∧ x ∈ ts ∧ (adj x).isSome) := by
  intro ts
  induction ts with
  | nil => intro adj x y; simp [addReverseEdges]
  | cons t rest ih =>
    intro adj x y
    rw [addReverseEdges]
    cases hadjt : adj t with
    | none =>
      rw [ih]
      constructor
      · rintro (h | ⟨rfl, hx, hs⟩)
        · exact Or.inl h
        · exact Or.inr ⟨rfl, List.mem_cons_of_mem t hx, hs⟩
      · rintro (h | ⟨rfl, hx, hs⟩)
        · exact Or.inl h
        · rcases List.mem_cons.mp hx with rfl | hx
          · rw [hadjt] at hs; simp at hs
          · exact Or.inr ⟨rfl, hx, hs⟩
    | some l =>
      rw [ih]
      by_cases hxt : x = t
      · subst hxt
        have e1 : nbList (mput adj x (l ++ [source])) x = l ++ [source] := by
          unfold nbList mput; simp
        have e2 : nbList adj x = l := by unfold nbList; rw [hadjt]; rfl
        have e3 : ((mput adj x (l ++ [source])) x).isSome := by
          unfold mput; simp
        rw [e1, e2]
        simp only [List.mem_append, List.mem_singleton, e3, hadjt]
        constructor
        · rintro ((h | rfl) | ⟨rfl, hx, hs⟩)
          · exact Or.inl h
          · exact Or.inr ⟨rfl, List.mem_cons_self x rest, by simp⟩
          · exact Or.inr ⟨rfl, List.mem_cons_of_mem x hx, by simp⟩
        · rintro (h | ⟨rfl, _, _⟩)
          · exact Or.inl (Or.inl h)
          · exact Or.inl (Or.inr rfl)
      · have e1 : nbList (mput adj t (l ++ [source])) x = nbList adj x := by
          unfold nbList mput; simp [hxt]
        have e2 : ((mput adj t (l ++ [source])) x).isSome = (adj x).isSome := by
          unfold mput; simp [hxt]
        rw [e1, e2]
        constructor
        · rintro (h | ⟨rfl, hx, hs⟩)
          · exact Or.inl h
          · exact Or.inr ⟨rfl, List.mem_cons_of_mem t hx, hs⟩
        · rintro (h | ⟨rfl, hx, hs⟩)
          · exact Or.inl h
          · rcases List.mem_cons.mp hx with rfl | hx
            · exact absurd rfl hxt
            · exact Or.inr ⟨rfl, hx, hs⟩

lemma addEdgeEntry_isSome (adj : String → Option (List String)) (s : String)
    (ts : List String) (x : String) :
    ((addEdgeEntry adj s ts) x).isSome ↔ (adj x).isSome ∨ x = s := by
  unfold addEdgeEntry
  rw [addReverseEdges_isSome]
  unfold mput
  by_cases hxs : x = s <;> simp [hxs]

lemma addEdgeEntry_mem (adj : String → Option (List String)) (s : String)
    (ts : List String) (x y : String)
    (hs : (adj s).isSome) (hts : ∀ t ∈ ts, (adj t).isSome) :
    y ∈ nbList (addEdgeEntry adj s ts) x ↔
      y ∈ nbList adj x ∨ (x = s ∧ y ∈ ts) ∨ (y = s ∧ x ∈ ts) := by
  unfold addEdgeEntry
  rw [addReverseEdges_mem]
  by_cases hxs : x = s
  · subst hxs
    have e1 : nbList (mput adj x (nbList adj x ++ ts)) x = nbList adj x ++ ts := by
      unfold nbList mput; simp
    have e2 : ((mput adj x (nbList adj x ++ ts)) x).isSome := by
      unfold mput; simp
    rw [e1]
    constructor
    · rintro (h | ⟨rfl, hx, _⟩)
      · rcases List.mem_append.mp h with h | h
        · exact Or.inl h
        · exact Or.inr (Or.inl ⟨rfl, h⟩)
      · exact Or.inr (Or.inr ⟨rfl, hx⟩)
    · rintro (h | ⟨_, h⟩ | ⟨rfl, hx⟩)
      · exact Or.inl (List.mem_append.mpr (Or.inl h))
      · exact Or.inl (List.mem_append.mpr (Or.inr h))
      · exact Or.inr ⟨rfl, hx, e2⟩
  · have e1 : nbList (mput adj s (nbList adj s ++ ts)) x = nbList adj x := by
      unfold nbList mput; simp [hxs]
    have e2 : ((mput adj s (nbList adj s ++ ts)) x).isSome = (adj x).isSome := by
      unfold mput; simp [hxs]
    rw [e1, e2]
    constructor
    · rintro (h | ⟨rfl, hx, _⟩)
      · exact Or.inl h
      · exact Or.inr (Or.inr ⟨rfl, hx⟩)
    · rintro (h | ⟨h, _⟩ | ⟨rfl, hx⟩)
      · exact Or.inl h
      · exact absurd h hxs
      · exact Or.inr ⟨rfl, hx, hts x hx⟩

lemma buildAdjacencyAux_spec :
    ∀ (es : List (String × List String)) (adj : String → Option (List String)),
      (∀ p ∈ es, (adj p.1).isSome ∧ ∀ t ∈ p.2, (adj t).isSome) →
      (∀ x, ((buildAdjacencyAux adj es) x).isSome ↔ (adj x).isSome) ∧
      (∀ x y, y ∈ nbList (buildAdjacencyAux adj es) x ↔
        y ∈ nbList adj x ∨ (∃ p ∈ es, p.1 = x ∧ y ∈ p.2) ∨
          (∃ p ∈ es, p.1 = y ∧ x ∈ p.2)) := by
  intro es
  induction es with
  | nil =>
    intro adj _
    refine ⟨fun x => Iff.rfl, fun x y => ?_⟩
    simp [buildAdjacencyAux]
  | cons p rest ih =>
    intro adj hpres
    have hp := hpres p (List.mem_cons_self p rest)
    have hdom1 : ∀ x, ((addEdgeEntry adj p.1 p.2) x).isSome ↔ (adj x).isSome := by
      intro x
      rw [addEdgeEntry_isSome]
      constructor
      · rintro (h | rfl)
        · exact h
        · exact hp.1
      · exact Or.inl
    have hrest : ∀ q ∈ rest, (((addEdgeEntry adj p.1 p.2) q.1).isSome ∧
        ∀ t ∈ q.2, ((addEdgeEntry adj p.1 p.2) t).isSome) := by
      intro q hq
      have h := hpres q (List.mem_cons_of_mem p hq)
      exact ⟨(hdom1 q.1).mpr h.1, fun t ht => (hdom1 t).mpr (h.2 t ht)⟩
    obtain ⟨ihdom, ihmem⟩ := ih (addEdgeEntry adj p.1 p.2) hrest
    constructor
    · intro x
      rw [buildAdjacencyAux, ihdom, hdom1]
    · intro x y
      rw [buildAdjacencyAux, ihmem,
        addEdgeEntry_mem adj p.1 p.2 x y hp.1 hp.2]
      constructor
      · rintro ((h | ⟨hx, hy⟩ | ⟨hy, hx⟩) | ⟨q, hq, hqx, hqy⟩ | ⟨q, hq, hqy, hqx⟩)
        · exact Or.inl h
        · exact Or.inr (Or.inl ⟨p, List.mem_cons_self p rest, hx.symm ▸ rfl, hy⟩)
        · exact Or.inr (Or.inr ⟨p, List.mem_cons_self p rest, hy.symm ▸ rfl, hx⟩)
        · exact Or.inr (Or.inl ⟨q, List.mem_cons_of_mem p hq, hqx, hqy⟩)
        · exact Or.inr (Or.inr ⟨q, List.mem_cons_of_mem p hq, hqy, hqx⟩)
      · rintro (h | ⟨q, hq, hqx, hqy⟩ | ⟨q, hq, hqy, hqx⟩)
        · exact Or.inl (Or.inl h)
        · rcases List.mem_cons.mp hq with rfl | hq
          · exact Or.inl (Or.inr (Or.inl ⟨hqx.symm, hqy⟩))
          · exact Or.inr (Or.inl ⟨q, hq, hqx, hqy⟩)
        · rcases List.mem_cons.mp hq with rfl | hq
          · exact Or.inl (Or.inr (Or.inr ⟨hqy.symm, hqx⟩))
          · exact Or.inr (Or.inr ⟨q, hq, hqy, hqx⟩)

lemma buildAdjacency_step_iff (g : DependencyGraph) (hg : ValidGraph g)
    (x y : String) : Step (buildAdjacency g) x y ↔ undirStep g x y := by
  have hpres : ∀ p ∈ g.Edges, ((adjInit g.Nodes) p.1).isSome ∧
      ∀ t ∈ p.2, ((adjInit g.Nodes) t).isSome := by
    intro p hp
    obtain ⟨h1, h2⟩ := hg.2.2 p hp
    exact ⟨(adjInit_isSome g.Nodes p.1).mpr h1,
      fun t ht => (adjInit_isSome g.Nodes t).mpr (h2 t ht)⟩
  obtain ⟨_, hmem⟩ := buildAdjacencyAux_spec g.Edges (adjInit g.Nodes) hpres
  unfold Step buildAdjacency undirStep
  rw [hmem x y, nbList_adjInit]
  simp

lemma buildAdjacency_symm (g : DependencyGraph) (hg : ValidGraph g)
    (x y : String) (h : Step (buildAdjacency g) x y) :
    Step (buildAdjacency g) y x := by
  rw [buildAdjacency_step_iff g hg] at h ⊢
  rcases h with h | h
  · exact Or.inr h
  · exact Or.inl h

lemma undirStep_mem_left (g : DependencyGraph) (hg : ValidGraph g)
    {x y : String} (h : undirStep g x y) : x ∈ g.Nodes := by
  rcases h with ⟨p, hp, rfl, _⟩ | ⟨p, hp, _, hx⟩
  · exact (hg.2.2 p hp).1
  · exact (hg.2.2 p hp).2 x hx

lemma undirStep_mem_right (g : DependencyGraph) (hg : ValidGraph g)
    {x y : String} (h : undirStep g x y) : y ∈ g.Nodes := by
  rcases h with ⟨p, hp, _, hy⟩ | ⟨p, hp, rfl, _⟩
  · exact (hg.2.2 p hp).2 y hy
  · exact (hg.2.2 p hp).1


/-! ## The discovery loop -/

lemma writeDiscovery_not_mem (g : DependencyGraph) (sgID n e : ℕ) :
    ∀ (comp : List String) (ns : String → NodeCompState) (x : String),
      x ∉ comp → (writeDiscovery g sgID n e comp ns) x = ns x := by
  intro comp
  induction comp with
  | nil => intro ns x _; rfl
  | cons nid rest ih =>
    intro ns x hx
    rw [writeDiscovery]
    rw [ih _ x (fun h => hx (List.mem_cons_of_mem nid h))]
    have hxn : x ≠ nid := fun h => hx (h ▸ List.mem_cons_self nid rest)
    by_cases hmem : nid ∈ g.Nodes
    · rw [if_pos hmem]; unfold upd; rw [if_neg hxn]
    · rw [if_neg hmem]

lemma writeDiscovery_mem (g : DependencyGraph) (sgID n e : ℕ) :
    ∀ (comp : List String) (ns : String → NodeCompState) (x : String),
      x ∈ comp → x ∈ g.Nodes →
      (writeDiscovery g sgID n e comp ns) x = ⟨sgID, n, e⟩ := by
  intro comp
  induction comp with
  | nil => intro ns x hx; exact absurd hx (List.not_mem_nil x)
  | cons nid rest ih =>
    intro ns x hx hgx
    rw [writeDiscovery]
    by_cases hrest : x ∈ rest
    · exact ih _ x hrest hgx
    · have hxn : x = nid := by
        rcases List.mem_cons.mp hx with h | h
        · exact h
        · exact absurd h hrest
      subst hxn
      rw [writeDiscovery_not_mem g sgID n e rest _ x hrest]
      rw [if_pos hgx]
      unfold upd
      rw [if_pos rfl]

lemma discoverLoop_spec (g : DependencyGraph)
    (adj : String → Option (List String)) (U : Finset String)
    (hadj : ∀ x y, Step adj x y → y ∈ U)
    (hsym : ∀ x y, Step adj x y → Step adj y x)
    (fuel : ℕ) (hfuel : U.card < fuel) :
    ∀ (seeds vis : List String) (sgID : ℕ) (ns : String → NodeCompState),
      (∀ x ∈ seeds, x ∈ U) →
      (∀ x ∈ vis, ∀ y, Step adj x y → y ∈ vis) →
      (∀ s ∈ (discoverLoop g adj fuel seeds vis sgID ns).1,
        s.NodeIDs.Nodup ∧ s.NodeIDs ≠ [] ∧
        s.EdgeCount = countEdgesIn g s.NodeIDs ∧
        (∀ x ∈ s.NodeIDs, x ∉ vis) ∧ (∀ x ∈ s.NodeIDs, x ∈ U) ∧
        (∃ v, ∀ x, x ∈ s.NodeIDs ↔ Reach adj v x)) ∧
      (∀ x, x ∈ (discoverLoop g adj fuel seeds vis sgID ns).2.1 ↔
        (∃ s ∈ (discoverLoop g adj fuel seeds vis sgID ns).1, x ∈ s.NodeIDs) ∨ x ∈ vis) ∧
      List.Pairwise (fun s t => ∀ x, x ∈ s.NodeIDs → x ∉ t.NodeIDs)
        (discoverLoop g adj fuel seeds vis sgID ns).1 ∧
      (∀ x ∈ seeds, x ∈ (discoverLoop g adj fuel seeds vis sgID ns).2.1) ∧
      (∀ x ∈ (discoverLoop g adj fuel seeds vis sgID ns).2.1, ∀ y,
        Step adj x y → y ∈ (discoverLoop g adj fuel seeds vis sgID ns).2.1) ∧
      (∀ i (h : i < (discoverLoop g adj fuel seeds vis sgID ns).1.length),
        ((discoverLoop g adj fuel seeds vis sgID ns).1.get ⟨i, h⟩).ID = sgID + i) ∧
      (∀ s ∈ (discoverLoop g adj fuel seeds vis sgID ns).1, ∀ x ∈ s.NodeIDs,
        x ∈ g.Nodes →
        ((discoverLoop g adj fuel seeds vis sgID ns).2.2 x).scoreN = s.NodeIDs.length ∧
        ((discoverLoop g adj fuel seeds vis sgID ns).2.2 x).scoreE = s.EdgeCount) ∧
      (∀ x, (∀ s ∈ (discoverLoop g adj fuel seeds vis sgID ns).1, x ∉ s.NodeIDs) →
        (discoverLoop g adj fuel seeds vis sgID ns).2.2 x = ns x) := by
  intro seeds
  induction seeds with
  | nil =>
    intro vis sgID ns _ hclosed
    refine ⟨by simp [discoverLoop], ?_, by simp [discoverLoop], by simp, ?_, ?_, by simp [discoverLoop], ?_⟩
    · intro x
      simp [discoverLoop]
    · intro x hx y hstep
      exact hclosed x hx y hstep
    · intro i h
      simp [discoverLoop] at h
    · intro x _
      rfl
  | cons nodeID rest ih =>
    intro vis sgID ns hseeds hclosed
    by_cases hmem : nodeID ∈ vis
    · have heq : discoverLoop g adj fuel (nodeID :: rest) vis sgID ns =
          discoverLoop g adj fuel rest vis sgID ns := by
        rw [discoverLoop, if_pos hmem]
      rw [heq]
      obtain ⟨c1, c2, c3, c4, c5, c6, c7, c8⟩ :=
        ih vis sgID ns (fun x hx => hseeds x (List.mem_cons_of_mem nodeID hx)) hclosed
      refine ⟨c1, c2, c3, ?_, c5, c6, c7, c8⟩
      intro x hx
      rcases List.mem_cons.mp hx with rfl | hx
      · exact (c2 x).mpr (Or.inr hmem)
      · exact c4 x hx
    · have hvU : nodeID ∈ U := hseeds nodeID (List.mem_cons_self nodeID rest)
      have hmeas : (U.filter (fun x => x ∉ vis)).card < fuel :=
        lt_of_le_of_lt (Finset.card_filter_le U _) hfuel
      obtain ⟨δ, d1, d2, d3, d4, d5, d6⟩ :=
        dfsF_class adj U hadj hsym fuel nodeID vis [] hvU hmem hmeas hclosed
      have hcomp : (dfsF fuel adj nodeID vis []).2 = δ := by
        rw [d1]; rfl
      have hδU : ∀ x ∈ δ, x ∈ U := by
        intro x hx
        exact reach_mem_of_closed hadj hvU ((d3 x).mp hx)
      have hδvis : ∀ x ∈ δ, x ∉ vis := d5
      have hvis1closed : ∀ x ∈ (dfsF fuel adj nodeID vis []).1, ∀ y,
          Step adj x y → y ∈ (dfsF fuel adj nodeID vis []).1 := d6
      have heq : discoverLoop g adj fuel (nodeID :: rest) vis sgID ns =
          (⟨sgID, (dfsF fuel adj nodeID vis []).2,
              countEdgesIn g (dfsF fuel adj nodeID vis []).2⟩ ::
            (discoverLoop g adj fuel rest (dfsF fuel adj nodeID vis []).1 (sgID + 1)
              (writeDiscovery g sgID (dfsF fuel adj nodeID vis []).2.length
                (countEdgesIn g (dfsF fuel adj nodeID vis []).2)
                (dfsF fuel adj nodeID vis []).2 ns)).1,
           (discoverLoop g adj fuel rest (dfsF fuel adj nodeID vis []).1 (sgID + 1)
              (writeDiscovery g sgID (dfsF fuel adj nodeID vis []).2.length
                (countEdgesIn g (dfsF fuel adj nodeID vis []).2)
                (dfsF fuel adj nodeID vis []).2 ns)).2.1,
           (discoverLoop g adj fuel rest (dfsF fuel adj nodeID vis []).1 (sgID + 1)
              (writeDiscovery g sgID (dfsF fuel adj nodeID vis []).2.length
                (countEdgesIn g (dfsF fuel adj nodeID vis []).2)
                (dfsF fuel adj nodeID vis []).2 ns)).2.2) := by
        rw [discoverLoop, if_neg hmem]
      set ns1 := writeDiscovery g sgID (dfsF fuel adj nodeID vis []).2.length
        (countEdgesIn g (dfsF fuel adj nodeID vis []).2)
        (dfsF fuel adj nodeID vis []).2 ns with hns1
      set vis1 := (dfsF fuel adj nodeID vis []).1 with hvis1
      obtain ⟨c1, c2, c3, c4, c5, c6, c7, c8⟩ :=
        ih vis1 (sgID + 1) ns1 (fun x hx => hseeds x (List.mem_cons_of_mem nodeID hx))
          hvis1closed
      set r := discoverLoop g adj fuel rest vis1 (sgID + 1) ns1 with hr
      rw [heq]
      have hsg : Subgraph.NodeIDs ⟨sgID, (dfsF fuel adj nodeID vis []).2,
          countEdgesIn g (dfsF fuel adj nodeID vis []).2⟩ = δ := by
        rw [hcomp]
      constructor
      · -- (1) characterization of each subgraph
        intro s hs
        rcases List.mem_cons.mp hs with rfl | hs
        · refine ⟨by rw [hcomp]; exact d2, ?_, by rw [hcomp], ?_, ?_, ?_⟩
          · rw [hcomp]
            intro hnil
            have hdnil : δ = [] := hnil
            rw [hdnil] at d3
            exact (List.not_mem_nil nodeID) ((d3 nodeID).mpr Relation.ReflTransGen.refl)
          · rw [hcomp]; exact hδvis
          · rw [hcomp]; exact hδU
          · rw [hcomp]; exact ⟨nodeID, d3⟩
        · obtain ⟨e1, e2, e3, e4, e5, e6⟩ := c1 s hs
          refine ⟨e1, e2, e3, ?_, e5, e6⟩
          intro x hx hvis
          exact e4 x hx ((d4 x).mpr (Or.inr hvis))
      · constructor
        · -- (2) visited characterization
          intro x
          rw [c2 x]
          constructor
          · rintro (⟨s, hs, hx⟩ | hx)
            · exact Or.inl ⟨s, List.mem_cons_of_mem _ hs, hx⟩
            · rcases (d4 x).mp hx with hδ | hv
              · refine Or.inl ⟨_, List.mem_cons_self _ _, ?_⟩
                rw [hsg]; exact hδ
              · exact Or.inr hv
          · rintro (⟨s, hs, hx⟩ | hx)
            · rcases List.mem_cons.mp hs with rfl | hs
              · rw [hsg] at hx
                exact Or.inr ((d4 x).mpr (Or.inl hx))
              · exact Or.inl ⟨s, hs, hx⟩
            · exact Or.inr ((d4 x).mpr (Or.inr hx))
        · constructor
          · -- (3) pairwise disjoint
            refine List.Pairwise.cons ?_ c3
            intro t ht x hx
            rw [hsg] at hx
            obtain ⟨e1, e2, e3, e4, e5, e6⟩ := c1 t ht
            intro hxt
            exact e4 x hxt ((d4 x).mpr (Or.inl hx))
          · constructor
            · -- (4) seeds visited
              intro x hx
              rcases List.mem_cons.mp hx with rfl | hx
              · exact (c2 x).mpr (Or.inr ((d4 x).mpr (Or.inl ((d3 x).mpr Relation.ReflTransGen.refl))))
              · exact c4 x hx
            · constructor
              · -- (5) closure
                exact c5
              · constructor
                · -- (6) IDs
                  intro i h
                  cases i with
                  | zero => simp
                  | succ j =>
                    have hj : j < r.1.length := by
                      simpa using h
                    have hc := c6 j hj
                    simp only [List.get_eq_getElem, List.getElem_cons_succ] at hc ⊢
                    omega
                · constructor
                  · -- (7) node fields of members
                    intro s hs x hx hgx
                    rcases List.mem_cons.mp hs with rfl | hs
                    · rw [hsg] at hx
                      have huntouched : r.2.2 x = ns1 x := by
                        apply c8
                        intro t ht hxt
                        obtain ⟨e1, e2, e3, e4, e5, e6⟩ := c1 t ht
                        exact e4 x hxt ((d4 x).mpr (Or.inl hx))
                      rw [huntouched, hns1]
                      rw [writeDiscovery_mem g _ _ _ _ ns x (by rw [hcomp]; exact hx) hgx]
                      exact ⟨rfl, rfl⟩
                    · exact c7 s hs x hx hgx
                  · -- (8) untouched
                    intro x hx
                    have h1 : r.2.2 x = ns1 x := by
                      apply c8
                      intro t ht
                      exact hx t (List.mem_cons_of_mem _ ht)
                    have h2 : x ∉ δ := by
                      intro hδ
                      exact hx _ (List.mem_cons_self _ _) (by rw [hsg]; exact hδ)
                    rw [h1, hns1, writeDiscovery_not_mem g _ _ _ _ ns x (by rw [hcomp]; exact h2)]


/-! ## The re-labeling loop -/

lemma reassignLoop_map (g : DependencyGraph) :
    ∀ (subs : List Subgraph) (i : ℕ) (ns : String → NodeCompState),
      (reassignLoop g i subs ns).1.map (fun s => (s.NodeIDs, s.EdgeCount)) =
        subs.map (fun s => (s.NodeIDs, s.EdgeCount)) := by
  intro subs
  induction subs with
  | nil => intro i ns; rfl
  | cons s rest ih =>
    intro i ns
    rw [reassignLoop]
    simp only [List.map_cons]
    rw [ih]

lemma reassignLoop_length (g : DependencyGraph) (subs : List Subgraph)
    (i : ℕ) (ns : String → NodeCompState) :
    (reassignLoop g i subs ns).1.length = subs.length := by
  have h := congrArg List.length (reassignLoop_map g subs i ns)
  simpa using h

lemma reassignLoop_getElem (g : DependencyGraph) :
    ∀ (subs : List Subgraph) (i : ℕ) (ns : String → NodeCompState) (j : ℕ),
      ((reassignLoop g i subs ns).1)[j]? =
        (subs[j]?).map (fun s => { s with ID := i + j }) := by
  intro subs
  induction subs with
  | nil => intro i ns j; rfl
  | cons s rest ih =>
    intro i ns j
    have hunfold : (reassignLoop g i (s :: rest) ns).1 =
        { s with ID := i } :: (reassignLoop g (i + 1) rest
          (s.NodeIDs.foldl (fun m nid =>
            if nid ∈ g.Nodes then upd m nid { m nid with sgID := i } else m)
            ns)).1 := rfl
    rw [hunfold]
    cases j with
    | zero => simp
    | succ j =>
      rw [List.getElem?_cons_succ, List.getElem?_cons_succ, ih]
      cases hr : rest[j]? with
      | none => rfl
      | some t =>
        have harith : i + 1 + j = i + (j + 1) := by omega
        simp [harith]

lemma writeSg_not_mem (g : DependencyGraph) (i : ℕ) :
    ∀ (l : List String) (m : String → NodeCompState) (x : String), x ∉ l →
      (l.foldl (fun m nid =>
        if nid ∈ g.Nodes then upd m nid { m nid with sgID := i } else m) m) x = m x := by
  intro l
  induction l with
  | nil => intro m x _; rfl
  | cons nid rest ih =>
    intro m x hx
    rw [List.foldl_cons]
    rw [ih _ x (fun h => hx (List.mem_cons_of_mem nid h))]
    have hxn : x ≠ nid := fun h => hx (h ▸ List.mem_cons_self nid rest)
    by_cases hmem : nid ∈ g.Nodes
    · rw [if_pos hmem]; unfold upd; rw [if_neg hxn]
    · rw [if_neg hmem]

lemma writeSg_mem (g : DependencyGraph) (i : ℕ) :
    ∀ (l : List String) (m : String → NodeCompState) (x : String), x ∈ l →
      x ∈ g.Nodes →
      (l.foldl (fun m nid =>
        if nid ∈ g.Nodes then upd m nid { m nid with sgID := i } else m) m) x =
        { m x with sgID := i } := by
  intro l
  induction l with
  | nil => intro m x hx; exact absurd hx (List.not_mem_nil x)
  | cons nid rest ih =>
    intro m x hx hgx
    rw [List.foldl_cons]
    by_cases hrest : x ∈ rest
    · rw [ih _ x hrest hgx]
      by_cases hxn : x = nid
      · subst hxn
        rw [if_pos hgx]
        unfold upd
        rw [if_pos rfl]
      · by_cases hmem : nid ∈ g.Nodes
        · rw [if_pos hmem]
          unfold upd
          rw [if_neg hxn]
        · rw [if_neg hmem]
    · have hxn : x = nid := by
        rcases List.mem_cons.mp hx with h | h
        · exact h
        · exact absurd h hrest
      subst hxn
      rw [writeSg_not_mem g i rest _ x hrest, if_pos hgx]
      unfold upd
      rw [if_pos rfl]

lemma reassignLoop_ns_untouched (g : DependencyGraph) :
    ∀ (subs : List Subgraph) (i : ℕ) (ns : String → NodeCompState) (x : String),
      (∀ s ∈ subs, x ∉ s.NodeIDs) →
      (reassignLoop g i subs ns).2 x = ns x := by
  intro subs
  induction subs with
  | nil => intro i ns x _; rfl
  | cons s rest ih =>
    intro i ns x hx
    have hunfold : (reassignLoop g i (s :: rest) ns).2 =
        (reassignLoop g (i + 1) rest
          (s.NodeIDs.foldl (fun m nid =>
            if nid ∈ g.Nodes then upd m nid { m nid with sgID := i } else m)
            ns)).2 := rfl
    rw [hunfold]
    rw [ih (i + 1) _ x (fun t ht => hx t (List.mem_cons_of_mem s ht))]
    exact writeSg_not_mem g i s.NodeIDs ns x (hx s (List.mem_cons_self s rest))

lemma reassignLoop_ns_mem (g : DependencyGraph) :
    ∀ (subs : List Subgraph) (i : ℕ) (ns : String → NodeCompState) (x : String)
      (j : ℕ) (s : Subgraph),
      List.Pairwise (fun s t => ∀ y, y ∈ s.NodeIDs → y ∉ t.NodeIDs) subs →
      subs[j]? = some s → x ∈ s.NodeIDs → x ∈ g.Nodes →
      (reassignLoop g i subs ns).2 x = { ns x with sgID := i + j } := by
  intro subs
  induction subs with
  | nil =>
    intro i ns x j s _ hs
    simp at hs
  | cons s0 rest ih =>
    intro i ns x j s hpw hs hxs hgx
    have hhead : ∀ t ∈ rest, ∀ y, y ∈ s0.NodeIDs → y ∉ t.NodeIDs :=
      fun t ht y hy => (List.pairwise_cons.mp hpw).1 t ht y hy
    have hrestpw := (List.pairwise_cons.mp hpw).2
    have hunfold : (reassignLoop g i (s0 :: rest) ns).2 =
        (reassignLoop g (i + 1) rest
          (s0.NodeIDs.foldl (fun m nid =>
            if nid ∈ g.Nodes then upd m nid { m nid with sgID := i } else m)
            ns)).2 := rfl
    rw [hunfold]
    cases j with
    | zero =>
      rw [List.getElem?_cons_zero] at hs
      have hss : s = s0 := by
        injection hs with h
        exact h.symm
      subst hss
      have hrest : ∀ t ∈ rest, x ∉ t.NodeIDs := fun t ht => hhead t ht x hxs
      rw [reassignLoop_ns_untouched g rest (i + 1) _ x hrest]
      rw [writeSg_mem g i s.NodeIDs ns x hxs hgx]
      simp
    | succ j =>
      rw [List.getElem?_cons_succ] at hs
      have hxs0 : x ∉ s0.NodeIDs := by
        intro hxsmem
        exact hhead s (List.getElem?_mem hs) x hxsmem hxs
      rw [ih (i + 1) _ x j s hrestpw hs hxs hgx]
      rw [writeSg_not_mem g i s0.NodeIDs ns x hxs0]
      have harith : i + 1 + j = i + (j + 1) := by omega
      rw [harith]


/-! ## Counting edges inside a component -/

lemma foldl_add_eq_sum {α : Type} (f : α → ℕ) :
    ∀ (l : List α) (acc : ℕ),
      l.foldl (fun a x => a + f x) acc = acc + (l.map f).sum := by
  intro l
  induction l with
  | nil => intro acc; simp
  | cons x rest ih =>
    intro acc
    rw [List.foldl_cons, ih, List.map_cons, List.sum_cons]
    omega

lemma map_sum_add {α : Type} (f h : α → ℕ) :
    ∀ (l : List α),
      (l.map (fun x => f x + h x)).sum = (l.map f).sum + (l.map h).sum := by
  intro l
  induction l with
  | nil => simp
  | cons x rest ih => simp [ih]; omega

lemma sum_indicator (a : String) (c : ℕ) :
    ∀ (l : List String), l.Nodup →
      (l.map (fun nid => if nid = a then c else 0)).sum =
        if a ∈ l then c else 0 := by
  intro l
  induction l with
  | nil => intro _; simp
  | cons x rest ih =>
    intro hnd
    rw [List.map_cons, List.sum_cons, ih hnd.of_cons]
    by_cases hxa : x = a
    · subst hxa
      rw [if_pos rfl, if_pos (List.mem_cons_self x rest),
        if_neg ((List.nodup_cons.mp hnd).1), Nat.add_zero]
    · rw [if_neg hxa]
      by_cases hmem : a ∈ rest
      · rw [if_pos hmem, if_pos (List.mem_cons_of_mem x hmem), Nat.zero_add]
      · rw [if_neg hmem, if_neg (by
          intro h
          rcases List.mem_cons.mp h with h | h
          · exact hxa h.symm
          · exact hmem h)]

lemma lookupEdges_eq_none :
    ∀ (es : List (String × List String)) (x : String),
      x ∉ es.map Prod.fst → lookupEdges es x = none := by
  intro es
  induction es with
  | nil => intro x _; rfl
  | cons p rest ih =>
    intro x hx
    rw [lookupEdges]
    rw [if_neg (by
      intro h
      exact hx (by rw [List.map_cons]; exact h ▸ List.mem_cons_self p.1 _))]
    exact ih x (fun h => hx (by rw [List.map_cons]; exact List.mem_cons_of_mem _ h))

lemma countEdgesIn_eq_sum (g : DependencyGraph) (comp : List String) :
    countEdgesIn g comp = (comp.map (fun nid =>
      match lookupEdges g.Edges nid with
      | some ts => (ts.filter (fun t => decide (t ∈ comp))).length
      | none => 0)).sum := by
  unfold countEdgesIn
  have h : ∀ (l : List String) (acc : ℕ),
      l.foldl (fun edgeCount nid =>
        match lookupEdges g.Edges nid with
        | some targets =>
          edgeCount + (targets.filter (fun t => decide (t ∈ comp))).length
        | none => edgeCount) acc =
      acc + (l.map (fun nid =>
        match lookupEdges g.Edges nid with
        | some ts => (ts.filter (fun t => decide (t ∈ comp))).length
        | none => 0)).sum := by
    intro l
    induction l with
    | nil => intro acc; simp
    | cons nid rest ih =>
      intro acc
      rw [List.foldl_cons, ih, List.map_cons, List.sum_cons]
      cases lookupEdges g.Edges nid with
      | none => simp
      | some ts => simp [Nat.add_assoc]
  rw [h comp 0, Nat.zero_add]

lemma sum_lookup_eq_sum_entries (comp : List String) (hnd : comp.Nodup) :
    ∀ (es : List (String × List String)), (es.map Prod.fst).Nodup →
      (comp.map (fun nid =>
        match lookupEdges es nid with
        | some ts => (ts.filter (fun t => decide (t ∈ comp))).length
        | none => 0)).sum =
      (es.map (fun p => if p.1 ∈ comp then
        (p.2.filter (fun t => decide (t ∈ comp))).length else 0)).sum := by
  intro es
  induction es with
  | nil =>
    intro _
    have h : ∀ l : List String, (l.map (fun nid =>
        match lookupEdges ([] : List (String × List String)) nid with
        | some ts => (ts.filter (fun t => decide (t ∈ comp))).length
        | none => 0)).sum = 0 := by
      intro l
      induction l with
      | nil => rfl
      | cons x rest ih => simpa [lookupEdges] using ih
    rw [h comp]
    rfl
  | cons p rest ih =>
    intro hk
    rw [List.map_cons] at hk
    have hp1 : p.1 ∉ rest.map Prod.fst := (List.nodup_cons.mp hk).1
    have hkrest : (rest.map Prod.fst).Nodup := (List.nodup_cons.mp hk).2
    have hpointwise : ∀ nid, (match lookupEdges (p :: rest) nid with
        | some ts => (ts.filter (fun t => decide (t ∈ comp))).length
        | none => 0) =
        (if nid = p.1 then (p.2.filter (fun t => decide (t ∈ comp))).length else 0) +
        (match lookupEdges rest nid with
        | some ts => (ts.filter (fun t => decide (t ∈ comp))).length
        | none => 0) := by
      intro nid
      rw [lookupEdges]
      by_cases hn : p.1 = nid
      · rw [if_pos hn, if_pos hn.symm]
        rw [← hn, lookupEdges_eq_none rest p.1 hp1]
        simp
      · rw [if_neg hn, if_neg (fun h => hn h.symm), Nat.zero_add]
    calc (comp.map (fun nid =>
        match lookupEdges (p :: rest) nid with
        | some ts => (ts.filter (fun t => decide (t ∈ comp))).length
        | none => 0)).sum
        = (comp.map (fun nid =>
            (if nid = p.1 then (p.2.filter (fun t => decide (t ∈ comp))).length else 0) +
            (match lookupEdges rest nid with
            | some ts => (ts.filter (fun t => decide (t ∈ comp))).length
            | none => 0))).sum := by
          congr 1
          exact List.map_congr_left (fun nid _ => hpointwise nid)
      _ = (if p.1 ∈ comp then (p.2.filter (fun t => decide (t ∈ comp))).length else 0) +
          (comp.map (fun nid =>
            match lookupEdges rest nid with
            | some ts => (ts.filter (fun t => decide (t ∈ comp))).length
            | none => 0)).sum := by
          rw [map_sum_add, sum_indicator p.1 _ comp hnd]
      _ = (if p.1 ∈ comp then (p.2.filter (fun t => decide (t ∈ comp))).length else 0) +
          (rest.map (fun q => if q.1 ∈ comp then
            (q.2.filter (fun t => decide (t ∈ comp))).length else 0)).sum := by
          rw [ih hkrest]
      _ = ((p :: rest).map (fun q => if q.1 ∈ comp then
            (q.2.filter (fun t => decide (t ∈ comp))).length else 0)).sum := by
          rw [List.map_cons, List.sum_cons]

lemma countEdgesIn_entries (g : DependencyGraph) (comp : List String)
    (hnd : comp.Nodup) (hk : (g.Edges.map Prod.fst).Nodup) :
    countEdgesIn g comp = (g.Edges.map (fun p => if p.1 ∈ comp then
      (p.2.filter (fun t => decide (t ∈ comp))).length else 0)).sum := by
  rw [countEdgesIn_eq_sum, sum_lookup_eq_sum_entries comp hnd g.Edges hk]

lemma countEdgesIn_eq_filter_edgePairs (g : DependencyGraph)
    (comp : List String) (hnd : comp.Nodup)
    (hk : (g.Edges.map Prod.fst).Nodup) :
    countEdgesIn g comp = ((edgePairs g).filter
      (fun q => decide (q.1 ∈ comp) && decide (q.2 ∈ comp))).length := by
  rw [countEdgesIn_entries g comp hnd hk]
  unfold edgePairs
  have h : ∀ es : List (String × List String),
      (es.map (fun p => if p.1 ∈ comp then
        (p.2.filter (fun t => decide (t ∈ comp))).length else 0)).sum =
      (((es.map (fun p => p.2.map (fun t => (p.1, t)))).flatten).filter
        (fun q => decide (q.1 ∈ comp) && decide (q.2 ∈ comp))).length := by
    intro es
    induction es with
    | nil => rfl
    | cons p rest ih =>
      rw [List.map_cons, List.sum_cons, List.map_cons, List.flatten_cons,
        List.filter_append, List.length_append, ih]
      congr 1
      rw [List.filter_map, List.length_map]
      by_cases hp : p.1 ∈ comp
      · rw [if_pos hp]
        congr 1
        apply List.filter_congr
        intro t _
        simp [hp]
      · rw [if_neg hp]
        have he : List.filter ((fun q => decide (q.1 ∈ comp) && decide (q.2 ∈ comp)) ∘
            (fun t => (p.1, t))) p.2 = [] := by
          apply List.filter_eq_nil_iff.mpr
          intro t _
          simp [hp]
        rw [he]
        rfl
  exact h g.Edges


/-! ## Assembled characterization of computeSubgraphs on a valid graph -/

lemma reach_iff_conn (g : DependencyGraph) (hg : ValidGraph g) (x y : String) :
    Reach (buildAdjacency g) x y ↔ UndirConn g x y := by
  constructor
  · exact Relation.ReflTransGen.mono
      (fun a b h => (buildAdjacency_step_iff g hg a b).mp h)
  · exact Relation.ReflTransGen.mono
      (fun a b h => (buildAdjacency_step_iff g hg a b).mpr h)

lemma discoverLoop_fst_ns (g : DependencyGraph)
    (adj : String → Option (List String)) (fuel : ℕ) :
    ∀ (seeds vis : List String) (sgID : ℕ) (ns ns' : String → NodeCompState),
      (discoverLoop g adj fuel seeds vis sgID ns).1 =
        (discoverLoop g adj fuel seeds vis sgID ns').1 ∧
      (discoverLoop g adj fuel seeds vis sgID ns).2.1 =
        (discoverLoop g adj fuel seeds vis sgID ns').2.1 := by
  intro seeds
  induction seeds with
  | nil => intro vis sgID ns ns'; exact ⟨rfl, rfl⟩
  | cons nodeID rest ih =>
    intro vis sgID ns ns'
    by_cases hmem : nodeID ∈ vis
    · have h1 : discoverLoop g adj fuel (nodeID :: rest) vis sgID ns =
          discoverLoop g adj fuel rest vis sgID ns := by
        rw [discoverLoop, if_pos hmem]
      have h2 : discoverLoop g adj fuel (nodeID :: rest) vis sgID ns' =
          discoverLoop g adj fuel rest vis sgID ns' := by
        rw [discoverLoop, if_pos hmem]
      rw [h1, h2]
      exact ih vis sgID ns ns'
    · have h1 : discoverLoop g adj fuel (nodeID :: rest) vis sgID ns =
          (⟨sgID, (dfsF fuel adj nodeID vis []).2,
              countEdgesIn g (dfsF fuel adj nodeID vis []).2⟩ ::
            (discoverLoop g adj fuel rest (dfsF fuel adj nodeID vis []).1 (sgID + 1)
              (writeDiscovery g sgID (dfsF fuel adj nodeID vis []).2.length
                (countEdgesIn g (dfsF fuel adj nodeID vis []).2)
                (dfsF fuel adj nodeID vis []).2 ns)).1,
           (discoverLoop g adj fuel rest (dfsF fuel adj nodeID vis []).1 (sgID + 1)
              (writeDiscovery g sgID (dfsF fuel adj nodeID vis []).2.length
                (countEdgesIn g (dfsF fuel adj nodeID vis []).2)
                (dfsF fuel adj nodeID vis []).2 ns)).2.1,
           (discoverLoop g adj fuel rest (dfsF fuel adj nodeID vis []).1 (sgID + 1)
              (writeDiscovery g sgID (dfsF fuel adj nodeID vis []).2.length
                (countEdgesIn g (dfsF fuel adj nodeID vis []).2)
                (dfsF fuel adj nodeID vis []).2 ns)).2.2) := by
        rw [discoverLoop, if_neg hmem]
      have h2 : discoverLoop g adj fuel (nodeID :: rest) vis sgID ns' =
          (⟨sgID, (dfsF fuel adj nodeID vis []).2,
              countEdgesIn g (dfsF fuel adj nodeID vis []).2⟩ ::
            (discoverLoop g adj fuel rest (dfsF fuel adj nodeID vis []).1 (sgID + 1)
              (writeDiscovery g sgID (dfsF fuel adj nodeID vis []).2.length
                (countEdgesIn g (dfsF fuel adj nodeID vis []).2)
                (dfsF fuel adj nodeID vis []).2 ns')).1,
           (discoverLoop g adj fuel rest (dfsF fuel adj nodeID vis []).1 (sgID + 1)
              (writeDiscovery g sgID (dfsF fuel adj nodeID vis []).2.length
                (countEdgesIn g (dfsF fuel adj nodeID vis []).2)
                (dfsF fuel adj nodeID vis []).2 ns')).2.1,
           (discoverLoop g adj fuel rest (dfsF fuel adj nodeID vis []).1 (sgID + 1)
              (writeDiscovery g sgID (dfsF fuel adj nodeID vis []).2.length
                (countEdgesIn g (dfsF fuel adj nodeID vis []).2)
                (dfsF fuel adj nodeID vis []).2 ns')).2.2) := by
        rw [discoverLoop, if_neg hmem]
      rw [h1, h2]
      obtain ⟨e1, e2⟩ := ih (dfsF fuel adj nodeID vis []).1 (sgID + 1)
        (writeDiscovery g sgID (dfsF fuel adj nodeID vis []).2.length
          (countEdgesIn g (dfsF fuel adj nodeID vis []).2)
          (dfsF fuel adj nodeID vis []).2 ns)
        (writeDiscovery g sgID (dfsF fuel adj nodeID vis []).2.length
          (countEdgesIn g (dfsF fuel adj nodeID vis []).2)
          (dfsF fuel adj nodeID vis []).2 ns')
      exact ⟨by rw [e1], e2⟩

lemma reassignLoop_fst_ns (g : DependencyGraph) :
    ∀ (subs : List Subgraph) (i : ℕ) (ns ns' : String → NodeCompState),
      (reassignLoop g i subs ns).1 = (reassignLoop g i subs ns').1 := by
  intro subs
  induction subs with
  | nil => intro i ns ns'; rfl
  | cons s rest ih =>
    intro i ns ns'
    have h1 : (reassignLoop g i (s :: rest) ns).1 =
        { s with ID := i } :: (reassignLoop g (i + 1) rest
          (s.NodeIDs.foldl (fun m nid =>
            if nid ∈ g.Nodes then upd m nid { m nid with sgID := i } else m)
            ns)).1 := rfl
    have h2 : (reassignLoop g i (s :: rest) ns').1 =
        { s with ID := i } :: (reassignLoop g (i + 1) rest
          (s.NodeIDs.foldl (fun m nid =>
            if nid ∈ g.Nodes then upd m nid { m nid with sgID := i } else m)
            ns')).1 := rfl
    rw [h1, h2, ih]

lemma computeSubgraphs_unfold (g : DependencyGraph) (st : SubgraphState)
    (hne : g.Nodes ≠ []) :
    computeSubgraphs g st =
      ⟨(reassignLoop g 0
          (List.insertionSort subGE
            (discoverLoop g (buildAdjacency g) ((idUniverse g).length + 1)
              g.Nodes [] 0 st.nodeState).1)
          (discoverLoop g (buildAdjacency g) ((idUniverse g).length + 1)
            g.Nodes [] 0 st.nodeState).2.2).1,
       (reassignLoop g 0
          (List.insertionSort subGE
            (discoverLoop g (buildAdjacency g) ((idUniverse g).length + 1)
              g.Nodes [] 0 st.nodeState).1)
          (discoverLoop g (buildAdjacency g) ((idUniverse g).length + 1)
            g.Nodes [] 0 st.nodeState).2.2).2⟩ := by
  unfold computeSubgraphs
  rw [if_neg hne]

lemma valid_graph_setup (g : DependencyGraph) (hg : ValidGraph g) :
    (∀ x y, Step (buildAdjacency g) x y → y ∈ g.Nodes.toFinset) ∧
    (∀ x y, Step (buildAdjacency g) x y → Step (buildAdjacency g) y x) ∧
    g.Nodes.toFinset.card < (idUniverse g).length + 1 := by
  refine ⟨?_, buildAdjacency_symm g hg, ?_⟩
  · intro x y h
    rw [List.mem_toFinset]
    exact undirStep_mem_right g hg ((buildAdjacency_step_iff g hg x y).mp h)
  · have h1 : g.Nodes.toFinset.card ≤ g.Nodes.length := g.Nodes.toFinset_card_le
    have h2 : g.Nodes.length ≤ (idUniverse g).length := by
      unfold idUniverse
      rw [List.length_append]
      omega
    omega

lemma pairwise_transfer {β : Type} (f : Subgraph → β) (R : β → β → Prop) :
    ∀ (l₁ l₂ : List Subgraph), l₁.map f = l₂.map f →
      List.Pairwise (fun a b => R (f a) (f b)) l₂ →
      List.Pairwise (fun a b => R (f a) (f b)) l₁ := by
  intro l₁ l₂ h hp
  have h2 : List.Pairwise R (l₂.map f) := List.pairwise_map.mpr hp
  rw [← h] at h2
  exact List.pairwise_map.mp h2

lemma computeSubgraphs_master (g : DependencyGraph) (st : SubgraphState)
    (hg : ValidGraph g) (hne : g.Nodes ≠ []) :
    (∀ s ∈ (computeSubgraphs g st).Subgraphs,
        s.NodeIDs.Nodup ∧ s.NodeIDs ≠ [] ∧
        (∀ x ∈ s.NodeIDs, x ∈ g.Nodes) ∧
        s.EdgeCount = countEdgesIn g s.NodeIDs ∧
        (∀ x ∈ s.NodeIDs, ∀ y, (y ∈ s.NodeIDs ↔ UndirConn g x y))) ∧
    (∀ x ∈ g.Nodes, ∃ s ∈ (computeSubgraphs g st).Subgraphs, x ∈ s.NodeIDs) ∧
    List.Pairwise (fun s t => ∀ x, x ∈ s.NodeIDs → x ∉ t.NodeIDs)
      (computeSubgraphs g st).Subgraphs ∧
    List.Sorted subGE (computeSubgraphs g st).Subgraphs ∧
    (∀ (j : ℕ) (s : Subgraph), ((computeSubgraphs g st).Subgraphs)[j]? = some s →
      s.ID = j) ∧
    (∀ (j : ℕ) (s : Subgraph), ((computeSubgraphs g st).Subgraphs)[j]? = some s →
      ∀ x ∈ s.NodeIDs, (computeSubgraphs g st).nodeState x =
        ⟨j, s.NodeIDs.length, s.EdgeCount⟩) := by
  obtain ⟨hadj, hsym, hfuel⟩ := valid_graph_setup g hg
  obtain ⟨c1, c2, c3, c4, c5, c6, c7, c8⟩ :=
    discoverLoop_spec g (buildAdjacency g) g.Nodes.toFinset hadj hsym
      ((idUniverse g).length + 1) hfuel g.Nodes [] 0 st.nodeState
      (fun x hx => List.mem_toFinset.mpr hx) (by simp)
  set d := discoverLoop g (buildAdjacency g) ((idUniverse g).length + 1)
    g.Nodes [] 0 st.nodeState with hd
  set slist := List.insertionSort subGE d.1 with hsortdef
  have hperm : List.Perm slist d.1 := List.perm_insertionSort subGE d.1
  have hslist : List.Sorted subGE slist := List.sorted_insertionSort subGE d.1
  have hout := computeSubgraphs_unfold g st hne
  set subs := (reassignLoop g 0 slist d.2.2).1 with hsubs
  have houts : (computeSubgraphs g st).Subgraphs = subs := by rw [hout]
  have houtns : (computeSubgraphs g st).nodeState = (reassignLoop g 0 slist d.2.2).2 := by
    rw [hout]
  have hmapeq : subs.map (fun s => (s.NodeIDs, s.EdgeCount)) =
      slist.map (fun s => (s.NodeIDs, s.EdgeCount)) :=
    reassignLoop_map g slist 0 d.2.2
  -- transfer an element of subs back to an element of the discovery list
  have hback : ∀ s ∈ subs, ∃ t ∈ d.1, t.NodeIDs = s.NodeIDs ∧
      t.EdgeCount = s.EdgeCount := by
    intro s hs
    have h1 : (s.NodeIDs, s.EdgeCount) ∈ subs.map (fun s => (s.NodeIDs, s.EdgeCount)) :=
      List.mem_map_of_mem _ hs
    rw [hmapeq] at h1
    obtain ⟨t, ht, hteq⟩ := List.mem_map.mp h1
    refine ⟨t, hperm.mem_iff.mp ht, ?_, ?_⟩
    · exact congrArg Prod.fst hteq
    · exact congrArg Prod.snd hteq
  have hfwd : ∀ t ∈ d.1, ∃ s ∈ subs, t.NodeIDs = s.NodeIDs ∧
      t.EdgeCount = s.EdgeCount := by
    intro t ht
    have h1 : (t.NodeIDs, t.EdgeCount) ∈ slist.map (fun s => (s.NodeIDs, s.EdgeCount)) :=
      List.mem_map_of_mem _ (hperm.mem_iff.mpr ht)
    rw [← hmapeq] at h1
    obtain ⟨s, hss, hseq⟩ := List.mem_map.mp h1
    exact ⟨s, hss, (congrArg Prod.fst hseq).symm, (congrArg Prod.snd hseq).symm⟩
  have hdisjslist : List.Pairwise (fun s t => ∀ x, x ∈ s.NodeIDs → x ∉ t.NodeIDs)
      slist := by
    exact (hperm.pairwise_iff (fun hab x hxb hxa => hab x hxa hxb)).mpr c3
  have hdisjsubs : List.Pairwise (fun s t => ∀ x, x ∈ s.NodeIDs → x ∉ t.NodeIDs)
      subs :=
    pairwise_transfer (fun s => (s.NodeIDs, s.EdgeCount))
      (fun a b => ∀ x, x ∈ a.1 → x ∉ b.1) subs slist hmapeq hdisjslist
  have hsortsubs : List.Sorted subGE subs :=
    pairwise_transfer (fun s => (s.NodeIDs, s.EdgeCount))
      (fun a b => scoreLe (b.1.length, b.2) (a.1.length, a.2) = true)
      subs slist hmapeq hslist
  -- characterization of one discovery component as a connectivity class
  have hchar : ∀ t ∈ d.1, (∀ x ∈ t.NodeIDs, ∀ y, (y ∈ t.NodeIDs ↔ UndirConn g x y)) := by
    intro t ht x hx y
    obtain ⟨e1, e2, e3, e4, e5, ⟨v, hv⟩⟩ := c1 t ht
    have hvx : Reach (buildAdjacency g) v x := (hv x).mp hx
    constructor
    · intro hy
      exact (reach_iff_conn g hg x y).mp
        (Relation.ReflTransGen.trans (reach_symm hsym hvx) ((hv y).mp hy))
    · intro hconn
      exact (hv y).mpr (Relation.ReflTransGen.trans hvx
        ((reach_iff_conn g hg x y).mpr hconn))
  refine ⟨?_, ?_, by rw [houts]; exact hdisjsubs, by rw [houts]; exact hsortsubs, ?_, ?_⟩
  · -- (P1)
    intro s hs
    rw [houts] at hs
    obtain ⟨t, ht, hteq1, hteq2⟩ := hback s hs
    obtain ⟨e1, e2, e3, e4, e5, e6⟩ := c1 t ht
    refine ⟨hteq1 ▸ e1, hteq1 ▸ e2, ?_, ?_, ?_⟩
    · intro x hx
      rw [← hteq1] at hx
      exact List.mem_toFinset.mp (e5 x hx)
    · rw [← hteq1, ← hteq2]
      exact e3
    · intro x hx y
      rw [← hteq1] at hx ⊢
      exact hchar t ht x hx y
  · -- (P2) coverage
    intro x hx
    have h1 : x ∈ d.2.1 := c4 x hx
    rcases (c2 x).mp h1 with ⟨t, ht, hxt⟩ | hfalse
    · obtain ⟨s, hs, hseq, _⟩ := hfwd t ht
      rw [houts]
      exact ⟨s, hs, hseq ▸ hxt⟩
    · simp at hfalse
  · -- (P5) IDs
    intro j s hjs
    rw [houts, hsubs] at hjs
    rw [reassignLoop_getElem] at hjs
    cases hsj : slist[j]? with
    | none => rw [hsj] at hjs; simp at hjs
    | some t =>
      rw [hsj] at hjs
      rw [Option.map_some'] at hjs
      injection hjs with hjs
      rw [← hjs]
      simp
  · -- (P6) node fields
    intro j s hjs x hx
    rw [houts, hsubs] at hjs
    rw [reassignLoop_getElem] at hjs
    cases hsj : slist[j]? with
    | none => rw [hsj] at hjs; simp at hjs
    | some t =>
      rw [hsj] at hjs
      rw [Option.map_some'] at hjs
      injection hjs with hjs
      have hxt : x ∈ t.NodeIDs := by
        rw [← hjs] at hx
        exact hx
      have htd : t ∈ d.1 := by
        have htsort : t ∈ slist := List.getElem?_mem hsj
        exact hperm.mem_iff.mp htsort
      obtain ⟨e1, e2, e3, e4, e5, e6⟩ := c1 t htd
      have hxg : x ∈ g.Nodes := List.mem_toFinset.mp (e5 x hxt)
      obtain ⟨f1, f2⟩ := c7 t htd x hxt hxg
      rw [houtns]
      rw [reassignLoop_ns_mem g slist 0 d.2.2 x j t hdisjslist hsj hxt hxg]
      have hval : ({ d.2.2 x with sgID := 0 + j } : NodeCompState) =
          ⟨0 + j, (d.2.2 x).scoreN, (d.2.2 x).scoreE⟩ := rfl
      rw [hval, f1, f2]
      rw [← hjs]
      simp


/-! ## Order independence of the computed partition -/

lemma undirStep_perm (g g' : DependencyGraph)
    (hE : List.Perm g.Edges g'.Edges) (x y : String) :
    undirStep g x y ↔ undirStep g' x y := by
  unfold undirStep
  constructor
  · rintro (⟨p, hp, h1, h2⟩ | ⟨p, hp, h1, h2⟩)
    · exact Or.inl ⟨p, hE.mem_iff.mp hp, h1, h2⟩
    · exact Or.inr ⟨p, hE.mem_iff.mp hp, h1, h2⟩
  · rintro (⟨p, hp, h1, h2⟩ | ⟨p, hp, h1, h2⟩)
    · exact Or.inl ⟨p, hE.mem_iff.mpr hp, h1, h2⟩
    · exact Or.inr ⟨p, hE.mem_iff.mpr hp, h1, h2⟩

lemma undirConn_perm (g g' : DependencyGraph)
    (hE : List.Perm g.Edges g'.Edges) (x y : String) :
    UndirConn g x y ↔ UndirConn g' x y := by
  constructor
  · exact Relation.ReflTransGen.mono (fun a b h => (undirStep_perm g g' hE a b).mp h)
  · exact Relation.ReflTransGen.mono (fun a b h => (undirStep_perm g g' hE a b).mpr h)

/-- On a valid nonempty graph the member-id finsets of the computed subgraphs
form a duplicate-free list whose members are exactly the connectivity classes
of the node ids. -/
lemma computeSubgraphs_classes (g : DependencyGraph) (st : SubgraphState)
    (hg : ValidGraph g) (hne : g.Nodes ≠ []) :
    ((computeSubgraphs g st).Subgraphs.map (fun s => s.NodeIDs.toFinset)).Nodup ∧
    (∀ F, F ∈ (computeSubgraphs g st).Subgraphs.map (fun s => s.NodeIDs.toFinset) ↔
      ∃ x ∈ g.Nodes, ∀ y, (y ∈ F ↔ UndirConn g x y)) := by
  obtain ⟨P1, P2, P3, _, _, _⟩ := computeSubgraphs_master g st hg hne
  constructor
  · have hpw : List.Pairwise
        (fun s t : Subgraph => s.NodeIDs.toFinset ≠ t.NodeIDs.toFinset)
        (computeSubgraphs g st).Subgraphs := by
      refine List.Pairwise.imp_of_mem ?_ P3
      intro s t hs ht hdisj hfeq
      obtain ⟨hnd, hnonnil, _⟩ := P1 s hs
      obtain ⟨x, hx⟩ := List.exists_mem_of_ne_nil s.NodeIDs hnonnil
      have hxt : x ∈ t.NodeIDs.toFinset := hfeq ▸ List.mem_toFinset.mpr hx
      exact hdisj x hx (List.mem_toFinset.mp hxt)
    exact List.pairwise_map.mpr hpw
  · intro F
    constructor
    · intro hF
      obtain ⟨s, hs, hFs⟩ := List.mem_map.mp hF
      obtain ⟨hnd, hnonnil, hmem, _, hclass⟩ := P1 s hs
      obtain ⟨x, hx⟩ := List.exists_mem_of_ne_nil s.NodeIDs hnonnil
      refine ⟨x, hmem x hx, ?_⟩
      intro y
      rw [← hFs, List.mem_toFinset]
      exact hclass x hx y
    · rintro ⟨x, hxg, hF⟩
      obtain ⟨s, hs, hxs⟩ := P2 x hxg
      obtain ⟨hnd, hnonnil, hmem, _, hclass⟩ := P1 s hs
      refine List.mem_map.mpr ⟨s, hs, ?_⟩
      apply Finset.ext
      intro y
      rw [List.mem_toFinset]
      rw [hclass x hxs y]
      exact (hF y).symm

/-- The partition computed on a valid graph is independent of the iteration
order over the node and edge maps. -/
lemma computeSubgraphs_order_indep (g g' : DependencyGraph)
    (st st' : SubgraphState) (hg : ValidGraph g)
    (hN : List.Perm g.Nodes g'.Nodes) (hE : List.Perm g.Edges g'.Edges)
    (hne : g.Nodes ≠ []) :
    List.Perm
      ((computeSubgraphs g st).Subgraphs.map (fun s => s.NodeIDs.toFinset))
      ((computeSubgraphs g' st').Subgraphs.map (fun s => s.NodeIDs.toFinset)) := by
  have hg' : ValidGraph g' := by
    obtain ⟨h1, h2, h3⟩ := hg
    refine ⟨hN.nodup_iff.mp h1, ((hE.map Prod.fst).nodup_iff).mp h2, ?_⟩
    intro p hp
    obtain ⟨hp1, hp2⟩ := h3 p (hE.mem_iff.mpr hp)
    exact ⟨hN.mem_iff.mp hp1, fun t ht => hN.mem_iff.mp (hp2 t ht)⟩
  have hne' : g'.Nodes ≠ [] := by
    intro h
    rw [h] at hN
    exact hne (List.Perm.eq_nil hN)
  obtain ⟨hnd1, hmem1⟩ := computeSubgraphs_classes g st hg hne
  obtain ⟨hnd2, hmem2⟩ := computeSubgraphs_classes g' st' hg' hne'
  rw [List.perm_ext_iff_of_nodup hnd1 hnd2]
  intro F
  rw [hmem1 F, hmem2 F]
  constructor
  · rintro ⟨x, hx, h⟩
    refine ⟨x, hN.mem_iff.mp hx, ?_⟩
    intro y
    rw [h y]
    exact undirConn_perm g g' hE x y
  · rintro ⟨x, hx, h⟩
    refine ⟨x, hN.mem_iff.mpr hx, ?_⟩
    intro y
    rw [h y]
    exact (undirConn_perm g g' hE x y).symm


/-! ## Degenerate graphs: empty node map, empty edge map -/

lemma computeSubgraphs_empty (g : DependencyGraph) (st : SubgraphState)
    (h : g.Nodes = []) : computeSubgraphs g st = st := by
  unfold computeSubgraphs
  rw [if_pos h]

lemma undirStep_no_edges (g : DependencyGraph) (h : g.Edges = []) (x y : String) :
    ¬ undirStep g x y := by
  rintro (⟨p, hp, _⟩ | ⟨p, hp, _⟩) <;> rw [h] at hp <;>
    exact absurd hp (List.not_mem_nil p)

lemma undirConn_no_edges (g : DependencyGraph) (h : g.Edges = [])
    {x y : String} (hc : UndirConn g x y) : x = y := by
  induction hc with
  | refl => rfl
  | tail _ hstep _ => exact absurd hstep (undirStep_no_edges g h _ _)

lemma countEdgesIn_no_edges (g : DependencyGraph) (h : g.Edges = [])
    (comp : List String) : countEdgesIn g comp = 0 := by
  rw [countEdgesIn_eq_sum, h]
  have h2 : ∀ l : List String, (l.map (fun nid =>
      match lookupEdges ([] : List (String × List String)) nid with
      | some ts => (ts.filter (fun t => decide (t ∈ comp))).length
      | none => 0)).sum = 0 := by
    intro l
    induction l with
    | nil => rfl
    | cons a rest ih => simpa [lookupEdges] using ih
  exact h2 comp

lemma eq_singleton_of_unique (l : List String) (x : String) (hnd : l.Nodup)
    (hx : x ∈ l) (hy : ∀ y ∈ l, y = x) : l = [x] := by
  cases l with
  | nil => exact absurd hx (List.not_mem_nil x)
  | cons a rest =>
    have ha : a = x := hy a (List.mem_cons_self a rest)
    subst ha
    have hrest : rest = [] := by
      rw [List.eq_nil_iff_forall_not_mem]
      intro y hyr
      have hya : y = a := hy y (List.mem_cons_of_mem a hyr)
      rw [hya] at hyr
      exact (List.nodup_cons.mp hnd).1 hyr
    rw [hrest]

/-! ## Summation helpers for the total edge count -/

lemma CountEdges_eq_sum (g : DependencyGraph) :
    CountEdges g = (g.Edges.map (fun p => p.2.length)).sum := by
  unfold CountEdges
  rw [foldl_add_eq_sum (fun p : String × List String => p.2.length) g.Edges 0]
  rw [Nat.zero_add]

lemma sum_sum_swap {α β : Type} (f : α → β → ℕ) :
    ∀ (l₁ : List α) (l₂ : List β),
      (l₁.map (fun a => (l₂.map (f a)).sum)).sum =
        (l₂.map (fun b => (l₁.map (fun a => f a b)).sum)).sum := by
  intro l₁
  induction l₁ with
  | nil =>
    intro l₂
    simp
  | cons a rest ih =>
    intro l₂
    rw [List.map_cons, List.sum_cons, ih l₂]
    rw [← map_sum_add (fun b => f a b) (fun b => (rest.map (fun a => f a b)).sum) l₂]
    congr 1

lemma sum_zero_of_not_mem (p1 : String) (ts : List String) :
    ∀ (subs : List Subgraph), (∀ t ∈ subs, p1 ∉ t.NodeIDs) →
      (subs.map (fun s => if p1 ∈ s.NodeIDs then
        (ts.filter (fun t => decide (t ∈ s.NodeIDs))).length else 0)).sum = 0 := by
  intro subs
  induction subs with
  | nil => intro _; rfl
  | cons s rest ih =>
    intro h
    rw [List.map_cons, List.sum_cons,
      if_neg (h s (List.mem_cons_self s rest)),
      ih (fun t ht => h t (List.mem_cons_of_mem s ht))]

lemma sum_pick_unique (p1 : String) (ts : List String) :
    ∀ (subs : List Subgraph),
      List.Pairwise (fun s t => ∀ x, x ∈ s.NodeIDs → x ∉ t.NodeIDs) subs →
      ∀ s₀ ∈ subs, p1 ∈ s₀.NodeIDs → (∀ t ∈ ts, t ∈ s₀.NodeIDs) →
      (subs.map (fun s => if p1 ∈ s.NodeIDs then
        (ts.filter (fun t => decide (t ∈ s.NodeIDs))).length else 0)).sum =
        ts.length := by
  intro subs
  induction subs with
  | nil =>
    intro _ s₀ hs₀
    exact absurd hs₀ (List.not_mem_nil s₀)
  | cons s rest ih =>
    intro hpw s₀ hs₀ hp1 hts
    have hhead : ∀ t ∈ rest, ∀ x, x ∈ s.NodeIDs → x ∉ t.NodeIDs :=
      (List.pairwise_cons.mp hpw).1
    have hrestpw := (List.pairwise_cons.mp hpw).2
    rw [List.map_cons, List.sum_cons]
    rcases List.mem_cons.mp hs₀ with rfl | hs₀rest
    · rw [if_pos hp1]
      have hfilter : ts.filter (fun t => decide (t ∈ s₀.NodeIDs)) = ts := by
        apply List.filter_eq_self.mpr
        intro t ht
        exact decide_eq_true (hts t ht)
      rw [hfilter]
      rw [sum_zero_of_not_mem p1 ts rest
        (fun t ht => hhead t ht p1 hp1)]
      omega
    · have hp1s : p1 ∉ s.NodeIDs := by
        intro hmem
        exact hhead s₀ hs₀rest p1 hmem hp1
      rw [if_neg hp1s, ih hrestpw s₀ hs₀rest hp1 hts, Nat.zero_add]


/-! ## Analyzer invariants -/

/-- Every node stored by the collector (in `projectObjects` or in the node
map) has `ID = Package ++ "::" ++ Name`, and its id is a present key of the
node map; the node map only gains keys; edges are untouched. -/
lemma collectDecl_inv (a : AnalyzerState) (pkgPath : String) (d : GoDecl) :
    ((collectDecl a pkgPath d).edges = a.edges) ∧
    (∀ s, (a.nodes s).isSome → ((collectDecl a pkgPath d).nodes s).isSome) ∧
    ((∀ o n, a.projectObjects o = some n →
        n.ID = n.Package ++ "::" ++ n.Name ∧ (a.nodes n.ID).isSome) →
      ∀ o n, (collectDecl a pkgPath d).projectObjects o = some n →
        n.ID = n.Package ++ "::" ++ n.Name ∧
          ((collectDecl a pkgPath d).nodes n.ID).isSome) := by
  cases d with
  | funcDecl obj fname recv sig uses =>
    cases obj with
    | none => exact ⟨rfl, fun s h => h, fun hinv => hinv⟩
    | some o =>
      refine ⟨rfl, ?_, ?_⟩
      · intro s h
        simp only [collectDecl]
        split -- the if in the new nodes map
        · simp
        · exact h
      · intro hinv o' n' hn'
        simp only [collectDecl] at hn'
        by_cases ho : o' = o
        · rw [if_pos ho] at hn'
          injection hn' with hn'
          subst hn'
          refine ⟨rfl, ?_⟩
          simp only [collectDecl]
          simp
        · rw [if_neg ho] at hn'
          obtain ⟨h1, h2⟩ := hinv o' n' hn'
          refine ⟨h1, ?_⟩
          simp only [collectDecl]
          split
          · simp
          · exact h2
  | typeDecl obj tname sig =>
    cases obj with
    | none => exact ⟨rfl, fun s h => h, fun hinv => hinv⟩
    | some o =>
      refine ⟨rfl, ?_, ?_⟩
      · intro s h
        simp only [collectDecl]
        split
        · simp
        · exact h
      · intro hinv o' n' hn'
        simp only [collectDecl] at hn'
        by_cases ho : o' = o
        · rw [if_pos ho] at hn'
          injection hn' with hn'
          subst hn'
          refine ⟨rfl, ?_⟩
          simp only [collectDecl]
          simp
        · rw [if_neg ho] at hn'
          obtain ⟨h1, h2⟩ := hinv o' n' hn'
          refine ⟨h1, ?_⟩
          simp only [collectDecl]
          split
          · simp
          · exact h2

lemma collectPkg_inv (pkgPath : String) :
    ∀ (decls : List GoDecl) (a : AnalyzerState),
      ((collectPkg a pkgPath decls).edges = a.edges) ∧
      (∀ s, (a.nodes s).isSome → ((collectPkg a pkgPath decls).nodes s).isSome) ∧
      ((∀ o n, a.projectObjects o = some n →
          n.ID = n.Package ++ "::" ++ n.Name ∧ (a.nodes n.ID).isSome) →
        ∀ o n, (collectPkg a pkgPath decls).projectObjects o = some n →
          n.ID = n.Package ++ "::" ++ n.Name ∧
            ((collectPkg a pkgPath decls).nodes n.ID).isSome) := by
  intro decls
  induction decls with
  | nil => intro a; exact ⟨rfl, fun s h => h, fun hinv => hinv⟩
  | cons d rest ih =>
    intro a
    obtain ⟨d1, d2, d3⟩ := collectDecl_inv a pkgPath d
    obtain ⟨r1, r2, r3⟩ := ih (collectDecl a pkgPath d)
    refine ⟨by rw [collectPkg, r1, d1], ?_, ?_⟩
    · intro s h
      exact r2 s (d2 s h)
    · intro hinv
      exact r3 (d3 hinv)

lemma collectDefinitions_inv :
    ∀ (pkgs : List GoPackage) (a : AnalyzerState),
      ((collectDefinitions a pkgs).edges = a.edges) ∧
      (∀ s, (a.nodes s).isSome → ((collectDefinitions a pkgs).nodes s).isSome) ∧
      ((∀ o n, a.projectObjects o = some n →
          n.ID = n.Package ++ "::" ++ n.Name ∧ (a.nodes n.ID).isSome) →
        ∀ o n, (collectDefinitions a pkgs).projectObjects o = some n →
          n.ID = n.Package ++ "::" ++ n.Name ∧
            ((collectDefinitions a pkgs).nodes n.ID).isSome) := by
  intro pkgs
  induction pkgs with
  | nil => intro a; exact ⟨rfl, fun s h => h, fun hinv => hinv⟩
  | cons p rest ih =>
    intro a
    have hunfold : collectDefinitions a (p :: rest) =
        collectDefinitions (if p.hasModule then collectPkg a p.pkgPath p.decls else a)
          rest := rfl
    by_cases hp : p.hasModule
    · obtain ⟨d1, d2, d3⟩ := collectPkg_inv p.pkgPath p.decls a
      obtain ⟨r1, r2, r3⟩ := ih (collectPkg a p.pkgPath p.decls)
      rw [hunfold, if_pos hp]
      refine ⟨by rw [r1, d1], ?_, ?_⟩
      · intro s h
        exact r2 s (d2 s h)
      · intro hinv
        exact r3 (d3 hinv)
    · obtain ⟨r1, r2, r3⟩ := ih a
      rw [hunfold, if_neg hp]
      exact ⟨r1, r2, r3⟩

/-- The dependency pass never changes `projectObjects` or the node map. -/
lemma analyzeDecl_frozen (a : AnalyzerState) (d : GoDecl) :
    (analyzeDecl a d).projectObjects = a.projectObjects ∧
    (analyzeDecl a d).nodes = a.nodes := by
  cases d with
  | funcDecl obj fname recv sig uses =>
    cases obj with
    | none => exact ⟨rfl, rfl⟩
    | some o =>
      simp only [analyzeDecl]
      cases a.projectObjects o with
      | none => exact ⟨rfl, rfl⟩
      | some src => exact ⟨rfl, rfl⟩
  | typeDecl obj tname sig => exact ⟨rfl, rfl⟩

lemma analyzeDependencies_frozen :
    ∀ (pkgs : List GoPackage) (a : AnalyzerState),
      (analyzeDependencies a pkgs).projectObjects = a.projectObjects ∧
      (analyzeDependencies a pkgs).nodes = a.nodes := by
  intro pkgs
  induction pkgs with
  | nil => intro a; exact ⟨rfl, rfl⟩
  | cons p rest ih =>
    intro a
    have hpkg : ∀ (decls : List GoDecl) (b : AnalyzerState),
        (analyzePkg b decls).projectObjects = b.projectObjects ∧
        (analyzePkg b decls).nodes = b.nodes := by
      intro decls
      induction decls with
      | nil => intro b; exact ⟨rfl, rfl⟩
      | cons d drest ihd =>
        intro b
        obtain ⟨h1, h2⟩ := analyzeDecl_frozen b d
        obtain ⟨h3, h4⟩ := ihd (analyzeDecl b d)
        exact ⟨by rw [analyzePkg, h3, h1], by rw [analyzePkg, h4, h2]⟩
    obtain ⟨r1, r2⟩ := ih (if p.hasModule then analyzePkg a p.decls else a)
    by_cases hp : p.hasModule
    · obtain ⟨h1, h2⟩ := hpkg p.decls a
      constructor
      · rw [analyzeDependencies, r1, if_pos hp, h1]
      · rw [analyzeDependencies, r2, if_pos hp, h2]
    · constructor
      · rw [analyzeDependencies, r1, if_neg hp]
      · rw [analyzeDependencies, r2, if_neg hp]

/-- The generic edge invariant carried through the `addDep` fold: any binary
property that holds of all current edges and of every edge the fold can
append keeps holding. -/
lemma addDep_fold_inv (src : Node) (po : ℕ → Option Node)
    (Q : String → String → Prop)
    (hQ : ∀ o n, po o = some n → n.ID ≠ src.ID → Q src.ID n.ID) :
    ∀ (uses : List ℕ) (E : String → List String) (seen : List String),
      (∀ s t, t ∈ E s → Q s t) →
      ∀ s t, t ∈ (uses.foldl (addDep src po) (E, seen)).1 s → Q s t := by
  intro uses
  induction uses with
  | nil => intro E seen hE s t ht; exact hE s t ht
  | cons u rest ih =>
    intro E seen hE s t ht
    rw [List.foldl_cons] at ht
    cases hpo : po u with
    | none =>
      have he : addDep src po (E, seen) u = (E, seen) := by
        unfold addDep
        rw [hpo]
      rw [he] at ht
      exact ih E seen hE s t ht
    | some target =>
      by_cases hself : target.ID = src.ID
      · have he : addDep src po (E, seen) u = (E, seen) := by
          unfold addDep
          rw [hpo]
          exact if_pos hself
        rw [he] at ht
        exact ih E seen hE s t ht
      · by_cases hseen : target.ID ∈ seen
        · have he : addDep src po (E, seen) u = (E, seen) := by
            unfold addDep
            rw [hpo]
            exact (if_neg hself).trans (if_pos hseen)
          rw [he] at ht
          exact ih E seen hE s t ht
        · have he : addDep src po (E, seen) u =
              (upd E src.ID (E src.ID ++ [target.ID]), target.ID :: seen) := by
            unfold addDep
            rw [hpo]
            exact (if_neg hself).trans (if_neg hseen)
          rw [he] at ht
          refine ih _ _ ?_ s t ht
          intro s' t' ht'
          unfold upd at ht'
          by_cases hkey : s' = src.ID
          · rw [if_pos hkey] at ht'
            rcases List.mem_append.mp ht' with h | h
            · rw [hkey]
              exact hE src.ID t' h
            · rw [List.mem_singleton] at h
              rw [hkey, h]
              exact hQ u target hpo hself
          · rw [if_neg hkey] at ht'
            exact hE s' t' ht'

lemma analyze_edges_inv (po : ℕ → Option Node) (Q : String → String → Prop)
    (hQ : ∀ (src : Node) (o : ℕ) (n : Node), po o = some n →
      n.ID ≠ src.ID → Q src.ID n.ID) :
    ∀ (pkgs : List GoPackage) (a : AnalyzerState), a.projectObjects = po →
      (∀ s t, t ∈ a.edges s → Q s t) →
      ∀ s t, t ∈ (analyzeDependencies a pkgs).edges s → Q s t := by
  have hdecl : ∀ (d : GoDecl) (a : AnalyzerState), a.projectObjects = po →
      (∀ s t, t ∈ a.edges s → Q s t) →
      ∀ s t, t ∈ (analyzeDecl a d).edges s → Q s t := by
    intro d a hpo hE s t ht
    cases d with
    | funcDecl obj fname recv sig uses =>
      cases obj with
      | none => exact hE s t ht
      | some o =>
        simp only [analyzeDecl] at ht
        cases hlook : a.projectObjects o with
        | none =>
          rw [hlook] at ht
          exact hE s t ht
        | some src =>
          rw [hlook] at ht
          have ht2 : t ∈ (uses.foldl (addDep src a.projectObjects) (a.edges, [])).1 s :=
            ht
          rw [hpo] at ht2
          refine addDep_fold_inv src po Q ?_ uses a.edges [] hE s t ht2
          intro o' n hn hne
          exact hQ src o' n hn hne
    | typeDecl obj tname sig => exact hE s t ht
  have hpkg : ∀ (decls : List GoDecl) (a : AnalyzerState), a.projectObjects = po →
      (∀ s t, t ∈ a.edges s → Q s t) →
      ∀ s t, t ∈ (analyzePkg a decls).edges s → Q s t := by
    intro decls
    induction decls with
    | nil => intro a _ hE s t ht; exact hE s t ht
    | cons d rest ihd =>
      intro a hpo hE s t ht
      rw [analyzePkg] at ht
      refine ihd (analyzeDecl a d) ?_ (hdecl d a hpo hE) s t ht
      rw [(analyzeDecl_frozen a d).1, hpo]
  intro pkgs
  induction pkgs with
  | nil => intro a _ hE s t ht; exact hE s t ht
  | cons p rest ih =>
    intro a hpo hE s t ht
    rw [analyzeDependencies] at ht
    by_cases hp : p.hasModule
    · rw [if_pos hp] at ht
      refine ih (analyzePkg a p.decls) ?_ (hpkg p.decls a hpo hE) s t ht
      have hfr : ∀ (decls : List GoDecl) (b : AnalyzerState),
          (analyzePkg b decls).projectObjects = b.projectObjects := by
        intro decls
        induction decls with
        | nil => intro b; rfl
        | cons d drest ihd =>
          intro b
          rw [analyzePkg, ihd, (analyzeDecl_frozen b d).1]
      rw [hfr, hpo]
    · rw [if_neg hp] at ht
      exact ih a hpo hE s t ht


/-! ## Duplicate-freedom of each source's target list -/

lemma addDep_fold_nodup (src : Node) (po : ℕ → Option Node) :
    ∀ (uses : List ℕ) (E : String → List String) (seen : List String),
      (∀ x, x ∈ E src.ID ↔ x ∈ seen) → (E src.ID).Nodup →
      (∀ x, x ∈ (uses.foldl (addDep src po) (E, seen)).1 src.ID ↔
        x ∈ (uses.foldl (addDep src po) (E, seen)).2) ∧
      ((uses.foldl (addDep src po) (E, seen)).1 src.ID).Nodup ∧
      (∀ s, s ≠ src.ID → (uses.foldl (addDep src po) (E, seen)).1 s = E s) := by
  intro uses
  induction uses with
  | nil => intro E seen hiff hnd; exact ⟨hiff, hnd, fun s _ => rfl⟩
  | cons u rest ih =>
    intro E seen hiff hnd
    rw [List.foldl_cons]
    cases hpo : po u with
    | none =>
      have he : addDep src po (E, seen) u = (E, seen) := by
        unfold addDep
        rw [hpo]
      rw [he]
      exact ih E seen hiff hnd
    | some target =>
      by_cases hself : target.ID = src.ID
      · have he : addDep src po (E, seen) u = (E, seen) := by
          unfold addDep
          rw [hpo]
          exact if_pos hself
        rw [he]
        exact ih E seen hiff hnd
      · by_cases hseen : target.ID ∈ seen
        · have he : addDep src po (E, seen) u = (E, seen) := by
            unfold addDep
            rw [hpo]
            exact (if_neg hself).trans (if_pos hseen)
          rw [he]
          exact ih E seen hiff hnd
        · have he : addDep src po (E, seen) u =
              (upd E src.ID (E src.ID ++ [target.ID]), target.ID :: seen) := by
            unfold addDep
            rw [hpo]
            exact (if_neg hself).trans (if_neg hseen)
          rw [he]
          have hupd : (upd E src.ID (E src.ID ++ [target.ID])) src.ID =
              E src.ID ++ [target.ID] := by
            unfold upd
            rw [if_pos rfl]
          obtain ⟨i1, i2, i3⟩ := ih (upd E src.ID (E src.ID ++ [target.ID]))
            (target.ID :: seen)
            (by
              intro x
              rw [hupd, List.mem_append, List.mem_singleton, List.mem_cons, hiff x]
              tauto)
            (by
              rw [hupd]
              refine List.Nodup.append hnd (List.nodup_singleton target.ID) ?_
              intro a ha hb
              rw [List.mem_singleton] at hb
              rw [hb] at ha
              exact hseen ((hiff target.ID).mp ha))
          refine ⟨i1, i2, ?_⟩
          intro s hs
          rw [i3 s hs]
          unfold upd
          rw [if_neg hs]

lemma analyzePkg_nodup (po : ℕ → Option Node) :
    ∀ (decls : List GoDecl) (a : AnalyzerState) (later : List String),
      a.projectObjects = po →
      (∀ s, (a.edges s).Nodup) →
      (∀ s, s ∈ (decls.map (declSourceID po)).flatten ++ later → a.edges s = []) →
      ((decls.map (declSourceID po)).flatten ++ later).Nodup →
      (∀ s, ((analyzePkg a decls).edges s).Nodup) ∧
      (∀ s, s ∈ later → (analyzePkg a decls).edges s = []) := by
  intro decls
  induction decls with
  | nil =>
    intro a later _ h1 h2 _
    exact ⟨h1, fun s hs => h2 s (by simpa using hs)⟩
  | cons d rest ihd =>
    intro a later hpo h1 h2 h3
    rw [analyzePkg]
    cases d with
    | typeDecl obj tname sig =>
      have he : analyzeDecl a (.typeDecl obj tname sig) = a := rfl
      rw [he]
      refine ihd a later hpo h1 ?_ ?_
      · intro s hs
        refine h2 s ?_
        simpa [declSourceID] using hs
      · simpa [declSourceID] using h3
    | funcDecl obj fname recv sig uses =>
      cases obj with
      | none =>
        have he : analyzeDecl a (.funcDecl none fname recv sig uses) = a := rfl
        rw [he]
        refine ihd a later hpo h1 ?_ ?_
        · intro s hs
          refine h2 s ?_
          simpa [declSourceID] using hs
        · simpa [declSourceID] using h3
      | some o =>
        cases hlook : po o with
        | none =>
          have he : analyzeDecl a (.funcDecl (some o) fname recv sig uses) = a := by
            have hm : analyzeDecl a (.funcDecl (some o) fname recv sig uses) =
                (match a.projectObjects o with
                 | none => a
                 | some src => { a with edges :=
                     (uses.foldl (addDep src a.projectObjects) (a.edges, [])).1 }) := rfl
            rw [hm, hpo, hlook]
          rw [he]
          refine ihd a later hpo h1 ?_ ?_
          · intro s hs
            refine h2 s ?_
            simpa [declSourceID, hlook] using hs
          · simpa [declSourceID, hlook] using h3
        | some src =>
          have he : analyzeDecl a (.funcDecl (some o) fname recv sig uses) =
              { a with edges := (uses.foldl (addDep src po) (a.edges, [])).1 } := by
            have hm : analyzeDecl a (.funcDecl (some o) fname recv sig uses) =
                (match a.projectObjects o with
                 | none => a
                 | some src2 => { a with edges :=
                     (uses.foldl (addDep src2 a.projectObjects) (a.edges, [])).1 }) := rfl
            rw [hm, hpo, hlook]
          rw [he]
          have hids : (((GoDecl.funcDecl (some o) fname recv sig uses) :: rest).map
              (declSourceID po)).flatten ++ later =
              src.ID :: ((rest.map (declSourceID po)).flatten ++ later) := by
            simp [declSourceID, hlook]
          rw [hids] at h2 h3
          have hsrcnil : a.edges src.ID = [] := h2 src.ID (List.mem_cons_self _ _)
          obtain ⟨f1, f2, f3⟩ := addDep_fold_nodup src po uses a.edges []
            (by
              intro x
              rw [hsrcnil])
            (by
              rw [hsrcnil]
              exact List.nodup_nil)
          have hnotin : src.ID ∉ (rest.map (declSourceID po)).flatten ++ later :=
            (List.nodup_cons.mp h3).1
          refine ihd { a with edges := (uses.foldl (addDep src po) (a.edges, [])).1 }
            later hpo ?_ ?_ ((List.nodup_cons.mp h3).2)
          · intro s
            by_cases hs : s = src.ID
            · rw [hs]
              exact f2
            · show ((uses.foldl (addDep src po) (a.edges, [])).1 s).Nodup
              rw [f3 s hs]
              exact h1 s
          · intro s hs
            have hsne : s ≠ src.ID := by
              intro heq
              rw [heq] at hs
              exact hnotin hs
            show (uses.foldl (addDep src po) (a.edges, [])).1 s = []
            rw [f3 s hsne]
            exact h2 s (List.mem_cons_of_mem _ hs)

lemma analyzeDependencies_nodup (po : ℕ → Option Node) :
    ∀ (pkgs : List GoPackage) (a : AnalyzerState),
      a.projectObjects = po →
      (∀ s, (a.edges s).Nodup) →
      (∀ s, s ∈ sourceIDs po pkgs → a.edges s = []) →
      (sourceIDs po pkgs).Nodup →
      ∀ s, ((analyzeDependencies a pkgs).edges s).Nodup := by
  intro pkgs
  induction pkgs with
  | nil => intro a _ h1 _ _; exact h1
  | cons p rest ih =>
    intro a hpo h1 h2 h3
    have hsrc : sourceIDs po (p :: rest) =
        (if p.hasModule then (p.decls.map (declSourceID po)).flatten else []) ++
          sourceIDs po rest := by
      unfold sourceIDs
      rw [List.map_cons, List.flatten_cons]
    rw [hsrc] at h2 h3
    rw [analyzeDependencies]
    by_cases hp : p.hasModule
    · rw [if_pos hp] at h2 h3 ⊢
      obtain ⟨g1, g2⟩ := analyzePkg_nodup po p.decls a (sourceIDs po rest) hpo h1 h2 h3
      have hfr : (analyzePkg a p.decls).projectObjects = po := by
        have hq : ∀ (decls : List GoDecl) (b : AnalyzerState),
            (analyzePkg b decls).projectObjects = b.projectObjects := by
          intro decls
          induction decls with
          | nil => intro b; rfl
          | cons dd drest ihd =>
            intro b
            rw [analyzePkg, ihd, (analyzeDecl_frozen b dd).1]
        rw [hq, hpo]
      exact ih (analyzePkg a p.decls) hfr g1 g2 ((List.nodup_append.mp h3).2.1)
    · rw [if_neg hp] at h2 h3 ⊢
      simp only [List.nil_append] at h2 h3
      exact ih a hpo h1 h2 h3


/-! ## Last shared helpers for the claim theorems -/

lemma findByID_eq_none (id : ℕ) :
    ∀ (subs : List Subgraph), (∀ s ∈ subs, s.ID ≠ id) →
      findByID subs id = none := by
  intro subs
  induction subs with
  | nil => intro _; rfl
  | cons s rest ih =>
    intro h
    rw [findByID, if_neg (h s (List.mem_cons_self s rest))]
    exact ih (fun t ht => h t (List.mem_cons_of_mem s ht))

lemma computeSubgraphs_sorted_scoreR (g : DependencyGraph) (st : SubgraphState)
    (hg : ValidGraph g) (hne : g.Nodes ≠ []) :
    List.Sorted (fun a b : Subgraph => Subgraph.scoreR b ≤ Subgraph.scoreR a)
      (computeSubgraphs g st).Subgraphs := by
  obtain ⟨P1, _, _, P4, _, _⟩ := computeSubgraphs_master g st hg hne
  refine List.Pairwise.imp_of_mem ?_ P4
  intro a b ha hb hab
  obtain ⟨_, hanil, _⟩ := P1 a ha
  obtain ⟨_, hbnil, _⟩ := P1 b hb
  have h1 : 1 ≤ b.NodeIDs.length := List.length_pos.mpr hbnil
  have h2 : 1 ≤ a.NodeIDs.length := List.length_pos.mpr hanil
  exact (scoreLe_iff_score b.NodeIDs.length b.EdgeCount
    a.NodeIDs.length a.EdgeCount h1 h2).mp hab

lemma scoreR_two_one_lt_three_two :
    computeSubgraphScore 2 1 < computeSubgraphScore 3 2 := by
  have hf : scoreLe (3, 2) (2, 1) = false := by decide
  have h2 := scoreLe_iff_score 3 2 2 1 (by norm_num) (by norm_num)
  have hnot : ¬ (computeSubgraphScore 3 2 ≤ computeSubgraphScore 2 1) := by
    intro hle
    rw [← h2] at hle
    rw [hf] at hle
    exact Bool.false_ne_true hle
  exact lt_of_not_le hnot

lemma scoreR_three_three_pos : 0 < computeSubgraphScore 3 3 := by
  have h10 : computeSubgraphScore 1 0 ≤ computeSubgraphScore 3 3 :=
    (scoreLe_iff_score 1 0 3 3 (by norm_num) (by norm_num)).mp (by decide)
  have h1 := computeSubgraphScore_one_zero
  linarith

/-! ## The claims -/

/-- C1: for all `n`, `e`, `computeSubgraphScore n e` equals the
specification's score function (`0` for `n = 0`; `n·log2(n+1) + 2e` for
`n = 1`, where `n·(n−1) = 0`; the density-bonus formula for `n ≥ 2`), and
`computeSubgraphScore 1 0 = 1` exactly. -/
theorem C1_score_matches_spec :
    (∀ n e : ℕ, computeSubgraphScore n e = specScore n e) ∧
    computeSubgraphScore 1 0 = 1 := by
  constructor
  · intro n e
    rcases Nat.lt_or_ge n 2 with h2 | h2
    · interval_cases n
      · unfold computeSubgraphScore specScore
        norm_num
      · unfold computeSubgraphScore specScore
        norm_num
    · have hn0 : n ≠ 0 := by omega
      have hn1 : n ≠ 1 := by omega
      have hpos : 0 < n * (n - 1) := Nat.mul_pos (by omega) (by omega)
      unfold computeSubgraphScore specScore
      rw [if_neg hn0, if_neg hn0, if_neg hn1]
      simp only [if_pos hpos]
      have hc : ((n * (n - 1) : ℕ) : ℝ) = (n : ℝ) * ((n : ℝ) - 1) := by
        push_cast [Nat.cast_sub (by omega : 1 ≤ n)]
        ring
      rw [hc]
  · exact computeSubgraphScore_one_zero

/-- C2: on every well-formed graph whose edges mention only node-map keys,
`ComputeSubgraphs` partitions the node ids into the maximal connected
components of the undirected interpretation of the edge set (each component
is exactly a connectivity class, the components cover every node and are
pairwise disjoint); the partition does not depend on the iteration order of
the node and edge maps; an empty graph yields zero components; and a graph
with no edges yields one singleton component of `EdgeCount` 0 per node. -/
theorem C2_connected_components :
    (∀ g : DependencyGraph, ValidGraph g →
      (∀ s ∈ (computeSubgraphs g initState).Subgraphs,
        s.NodeIDs ≠ [] ∧ s.NodeIDs.Nodup ∧ (∀ x ∈ s.NodeIDs, x ∈ g.Nodes) ∧
        (∀ x ∈ s.NodeIDs, ∀ y, (y ∈ s.NodeIDs ↔ UndirConn g x y))) ∧
      (∀ x ∈ g.Nodes, ∃ s ∈ (computeSubgraphs g initState).Subgraphs, x ∈ s.NodeIDs) ∧
      List.Pairwise (fun s t => ∀ x, x ∈ s.NodeIDs → x ∉ t.NodeIDs)
        (computeSubgraphs g initState).Subgraphs) ∧
    (∀ g g' : DependencyGraph, ValidGraph g →
      List.Perm g.Nodes g'.Nodes → List.Perm g.Edges g'.Edges →
      List.Perm
        ((computeSubgraphs g initState).Subgraphs.map (fun s => s.NodeIDs.toFinset))
        ((computeSubgraphs g' initState).Subgraphs.map (fun s => s.NodeIDs.toFinset))) ∧
    (∀ g : DependencyGraph, g.Nodes = [] →
      (computeSubgraphs g initState).Subgraphs = []) ∧
    (∀ g : DependencyGraph, g.Nodes.Nodup → g.Edges = [] →
      List.Perm ((computeSubgraphs g initState).Subgraphs.map (fun s => s.NodeIDs))
        (g.Nodes.map (fun v => [v])) ∧
      ∀ s ∈ (computeSubgraphs g initState).Subgraphs,
        s.EdgeCount = 0 ∧ s.NodeIDs.length = 1) := by
  have hempty : ∀ g : DependencyGraph, g.Nodes = [] →
      (computeSubgraphs g initState).Subgraphs = [] := by
    intro g h
    rw [computeSubgraphs_empty g initState h]
    rfl
  refine ⟨?_, ?_, hempty, ?_⟩
  · intro g hg
    by_cases hne : g.Nodes = []
    · rw [hempty g hne]
      refine ⟨by simp, ?_, List.Pairwise.nil⟩
      intro x hx
      rw [hne] at hx
      exact absurd hx (List.not_mem_nil x)
    · obtain ⟨P1, P2, P3, _, _, _⟩ := computeSubgraphs_master g initState hg hne
      refine ⟨?_, P2, P3⟩
      intro s hs
      obtain ⟨hnd, hnil, hmem, _, hclass⟩ := P1 s hs
      exact ⟨hnil, hnd, hmem, hclass⟩
  · intro g g' hg hN hE
    by_cases hne : g.Nodes = []
    · have hne' : g'.Nodes = [] := by
        rw [hne] at hN
        exact (List.Perm.eq_nil hN.symm)
      rw [hempty g hne, hempty g' hne']
    · exact computeSubgraphs_order_indep g g' initState initState hg hN hE hne
  · intro g hnd hE
    have hg : ValidGraph g := by
      refine ⟨hnd, ?_, ?_⟩
      · rw [hE]
        exact List.nodup_nil
      · intro p hp
        rw [hE] at hp
        exact absurd hp (List.not_mem_nil p)
    by_cases hne : g.Nodes = []
    · rw [hempty g hne, hne]
      exact ⟨List.Perm.refl [], by simp⟩
    · obtain ⟨P1, P2, P3, _, _, _⟩ := computeSubgraphs_master g initState hg hne
      have hsing : ∀ s ∈ (computeSubgraphs g initState).Subgraphs,
          ∃ x ∈ g.Nodes, s.NodeIDs = [x] := by
        intro s hs
        obtain ⟨hsnd, hsnil, hsmem, _, hclass⟩ := P1 s hs
        obtain ⟨x, hx⟩ := List.exists_mem_of_ne_nil s.NodeIDs hsnil
        refine ⟨x, hsmem x hx, ?_⟩
        refine eq_singleton_of_unique s.NodeIDs x hsnd hx ?_
        intro y hy
        exact (undirConn_no_edges g hE ((hclass x hx y).mp hy)).symm
      constructor
      · rw [List.perm_ext_iff_of_nodup]
        · intro l
          constructor
          · intro hl
            obtain ⟨s, hs, hsl⟩ := List.mem_map.mp hl
            obtain ⟨x, hxg, hx⟩ := hsing s hs
            exact List.mem_map.mpr ⟨x, hxg, by rw [← hsl, hx]⟩
          · intro hl
            obtain ⟨x, hxg, hxl⟩ := List.mem_map.mp hl
            obtain ⟨s, hs, hxs⟩ := P2 x hxg
            obtain ⟨x2, _, hx2⟩ := hsing s hs
            have hxx2 : x2 = x := by
              rw [hx2] at hxs
              rw [List.mem_singleton] at hxs
              exact hxs.symm
            refine List.mem_map.mpr ⟨s, hs, ?_⟩
            rw [hx2, hxx2, hxl]
          
        · have hpw : List.Pairwise
              (fun s t : Subgraph => s.NodeIDs ≠ t.NodeIDs)
              (computeSubgraphs g initState).Subgraphs := by
            refine List.Pairwise.imp_of_mem ?_ P3
            intro s t hs ht hdisj heq
            obtain ⟨_, hsnil, _⟩ := P1 s hs
            obtain ⟨x, hx⟩ := List.exists_mem_of_ne_nil s.NodeIDs hsnil
            exact hdisj x hx (heq ▸ hx)
          exact List.pairwise_map.mpr hpw
        · refine List.Nodup.map ?_ hnd
          intro a b hab
          injection hab
      · intro s hs
        obtain ⟨hsnd, hsnil, hsmem, hec, hclass⟩ := P1 s hs
        obtain ⟨x, _, hx⟩ := hsing s hs
        refine ⟨?_, by rw [hx]; rfl⟩
        rw [hec]
        exact countEdgesIn_no_edges g hE s.NodeIDs

/-- C2 witness: the partition facts instantiated on the two-component example
graph and on a permuted copy of it. -/
theorem C2_connected_components_witness :
    ValidGraph gChain ∧ List.Perm gChain.Nodes gChainPerm.Nodes ∧
    List.Perm gChain.Edges gChainPerm.Edges ∧
    List.Perm
      ((computeSubgraphs gChain initState).Subgraphs.map (fun s => s.NodeIDs.toFinset))
      ((computeSubgraphs gChainPerm initState).Subgraphs.map (fun s => s.NodeIDs.toFinset)) :=
  ⟨by decide, by decide, by decide,
    C2_connected_components.2.1 gChain gChainPerm (by decide) (by decide) (by decide)⟩

/-- C3: after `ComputeSubgraphs` on a valid non-empty graph the subgraph list
is sorted by score descending, the subgraph at index `i` has `ID = i`, and
every member node's `SubgraphID`/`SubgraphScore` fields hold the final id and
the component's score; on the example graph with components `{A,B,C}` and
`{D,E}` exactly two components result, with the three-member component first
and strictly higher-scored. -/
theorem C3_sorted_relabelled :
    (∀ (g : DependencyGraph) (st : SubgraphState), ValidGraph g → g.Nodes ≠ [] →
      List.Sorted (fun a b : Subgraph => Subgraph.scoreR b ≤ Subgraph.scoreR a)
        (computeSubgraphs g st).Subgraphs ∧
      (∀ (j : ℕ) (s : Subgraph), ((computeSubgraphs g st).Subgraphs)[j]? = some s →
        s.ID = j ∧
        ∀ x ∈ s.NodeIDs,
          ((computeSubgraphs g st).nodeState x).sgID = j ∧
          NodeCompState.scoreR ((computeSubgraphs g st).nodeState x) =
            Subgraph.scoreR s)) ∧
    ((computeSubgraphs gChain initState).Subgraphs =
      [⟨0, ["A", "B", "C"], 2⟩, ⟨1, ["D", "E"], 1⟩] ∧
     Subgraph.scoreR ⟨1, ["D", "E"], 1⟩ < Subgraph.scoreR ⟨0, ["A", "B", "C"], 2⟩) := by
  constructor
  · intro g st hg hne
    obtain ⟨P1, P2, P3, P4, P5, P6⟩ := computeSubgraphs_master g st hg hne
    refine ⟨computeSubgraphs_sorted_scoreR g st hg hne, ?_⟩
    intro j s hjs
    refine ⟨P5 j s hjs, ?_⟩
    intro x hx
    rw [P6 j s hjs x hx]
    exact ⟨rfl, rfl⟩
  · constructor
    · decide
    · show computeSubgraphScore (["D", "E"] : List String).length 1 <
        computeSubgraphScore (["A", "B", "C"] : List String).length 2
      exact scoreR_two_one_lt_three_two

/-- C3 witness: the sortedness and re-labeling facts instantiated on the
two-component example graph. -/
theorem C3_sorted_relabelled_witness :
    ValidGraph gChain ∧ gChain.Nodes ≠ [] ∧
    List.Sorted (fun a b : Subgraph => Subgraph.scoreR b ≤ Subgraph.scoreR a)
      (computeSubgraphs gChain initState).Subgraphs :=
  ⟨by decide, by decide,
    (C3_sorted_relabelled.1 gChain initState (by decide) (by decide)).1⟩

/-- C4: each component's `EdgeCount` equals the number of directed edges with
both endpoints inside the component (each directed edge entry counted once);
the triangle graph yields one component of three members with `EdgeCount` 3
and a strictly positive score. -/
theorem C4_edge_count :
    (∀ (g : DependencyGraph) (st : SubgraphState), ValidGraph g → g.Nodes ≠ [] →
      ∀ s ∈ (computeSubgraphs g st).Subgraphs,
        s.EdgeCount = ((edgePairs g).filter
          (fun q => decide (q.1 ∈ s.NodeIDs) && decide (q.2 ∈ s.NodeIDs))).length) ∧
    ((computeSubgraphs gTriangle initState).Subgraphs = [⟨0, ["A", "B", "C"], 3⟩] ∧
     0 < Subgraph.scoreR ⟨0, ["A", "B", "C"], 3⟩) := by
  constructor
  · intro g st hg hne s hs
    obtain ⟨P1, _, _, _, _, _⟩ := computeSubgraphs_master g st hg hne
    obtain ⟨hnd, _, _, hec, _⟩ := P1 s hs
    rw [hec]
    exact countEdgesIn_eq_filter_edgePairs g s.NodeIDs hnd hg.2.1
  · constructor
    · decide
    · show (0 : ℝ) < computeSubgraphScore (["A", "B", "C"] : List String).length 3
      exact scoreR_three_three_pos

/-- C4 witness: the edge-count characterization instantiated on the triangle
graph. -/
theorem C4_edge_count_witness :
    ValidGraph gTriangle ∧ gTriangle.Nodes ≠ [] ∧
    (⟨0, ["A", "B", "C"], 3⟩ : Subgraph) ∈ (computeSubgraphs gTriangle initState).Subgraphs ∧
    (⟨0, ["A", "B", "C"], 3⟩ : Subgraph).EdgeCount = ((edgePairs gTriangle).filter
      (fun q => decide (q.1 ∈ (["A", "B", "C"] : List String)) &&
        decide (q.2 ∈ (["A", "B", "C"] : List String)))).length :=
  ⟨by decide, by decide, by decide,
    C4_edge_count.1 gTriangle initState (by decide) (by decide) _ (by decide)⟩


lemma computeSubgraphs_state_indep (g : DependencyGraph)
    (hne : g.Nodes ≠ []) (st st' : SubgraphState) :
    (computeSubgraphs g st).Subgraphs = (computeSubgraphs g st').Subgraphs := by
  rw [computeSubgraphs_unfold g st hne, computeSubgraphs_unfold g st' hne]
  have hd := discoverLoop_fst_ns g (buildAdjacency g) ((idUniverse g).length + 1)
    g.Nodes [] 0 st.nodeState st'.nodeState
  rw [hd.1]
  exact reassignLoop_fst_ns g
    (List.insertionSort subGE
      (discoverLoop g (buildAdjacency g) ((idUniverse g).length + 1)
        g.Nodes [] 0 st'.nodeState).1) 0 _ _

lemma computeSubgraphs_ns_indep (g : DependencyGraph) (hg : ValidGraph g)
    (hne : g.Nodes ≠ []) (st st' : SubgraphState) :
    ∀ x ∈ g.Nodes,
      (computeSubgraphs g st).nodeState x = (computeSubgraphs g st').nodeState x := by
  intro x hx
  obtain ⟨_, P2, _, _, _, P6⟩ := computeSubgraphs_master g st hg hne
  obtain ⟨_, _, _, _, _, P6'⟩ := computeSubgraphs_master g st' hg hne
  obtain ⟨s, hs, hxs⟩ := P2 x hx
  obtain ⟨j, hj⟩ := List.mem_iff_getElem?.mp hs
  have hj' : ((computeSubgraphs g st').Subgraphs)[j]? = some s := by
    rw [← computeSubgraphs_state_indep g hne st st']
    exact hj
  rw [P6 j s hj x hxs, P6' j s hj' x hxs]

/-- C8: `ComputeSubgraphs` overwrites all previously computed component state:
on a valid graph the resulting subgraph list and the component fields of every
node are independent of the prior state, and in particular running the
computation twice in succession yields the same subgraph list and the same
per-node component fields as running it once. -/
theorem C8_overwrite_idempotent (g : DependencyGraph) (st : SubgraphState)
    (hg : ValidGraph g) :
    (g.Nodes ≠ [] → ∀ st' : SubgraphState,
      (computeSubgraphs g st).Subgraphs = (computeSubgraphs g st').Subgraphs ∧
      ∀ x ∈ g.Nodes,
        (computeSubgraphs g st).nodeState x = (computeSubgraphs g st').nodeState x) ∧
    (computeSubgraphs g (computeSubgraphs g st)).Subgraphs =
      (computeSubgraphs g st).Subgraphs ∧
    (∀ x ∈ g.Nodes,
      (computeSubgraphs g (computeSubgraphs g st)).nodeState x =
        (computeSubgraphs g st).nodeState x) := by
  by_cases hne : g.Nodes = []
  · refine ⟨fun h => absurd hne h, ?_, ?_⟩
    · rw [computeSubgraphs_empty g (computeSubgraphs g st) hne]
    · intro x hx
      rw [computeSubgraphs_empty g (computeSubgraphs g st) hne]
  · refine ⟨fun _ st' => ⟨computeSubgraphs_state_indep g hne st st',
      computeSubgraphs_ns_indep g hg hne st st'⟩, ?_, ?_⟩
    · exact computeSubgraphs_state_indep g hne (computeSubgraphs g st) st
    · exact computeSubgraphs_ns_indep g hg hne (computeSubgraphs g st) st

/-- C8 witness: recomputation on the example graph with a dirty prior state
gives the same subgraph list as the first run. -/
theorem C8_overwrite_idempotent_witness :
    ValidGraph gChain ∧ gChain.Nodes ≠ [] ∧
    (computeSubgraphs gChain initState).Subgraphs =
      (computeSubgraphs gChain (computeSubgraphs gChain initState)).Subgraphs :=
  ⟨by decide, by decide,
    ((C8_overwrite_idempotent gChain initState (by decide)).1 (by decide)
      (computeSubgraphs gChain initState)).1⟩

/-- C9: `GetSubgraphByID` returns none for an id not assigned to any computed
subgraph; `GetNodeSubgraph` returns none for a node id absent from the node
map; `GetLargestSubgraph` returns none on an empty graph, and on a valid
non-empty graph returns the head of the sorted list, whose score is maximal
among all computed subgraphs. -/
theorem C9_queries :
    (∀ (st : SubgraphState) (id : ℕ), (∀ s ∈ st.Subgraphs, s.ID ≠ id) →
      GetSubgraphByID st id = none) ∧
    (∀ (g : DependencyGraph) (st : SubgraphState) (nodeID : String),
      nodeID ∉ g.Nodes → GetNodeSubgraph g st nodeID = none) ∧
    (∀ g : DependencyGraph, g.Nodes = [] →
      GetLargestSubgraph (computeSubgraphs g initState) = none) ∧
    (∀ (g : DependencyGraph) (st : SubgraphState), ValidGraph g → g.Nodes ≠ [] →
      ∃ s rest, (computeSubgraphs g st).Subgraphs = s :: rest ∧
        GetLargestSubgraph (computeSubgraphs g st) = some s ∧
        ∀ t ∈ (computeSubgraphs g st).Subgraphs,
          Subgraph.scoreR t ≤ Subgraph.scoreR s) := by
  refine ⟨?_, ?_, ?_, ?_⟩
  · intro st id h
    exact findByID_eq_none id st.Subgraphs h
  · intro g st nodeID h
    unfold GetNodeSubgraph
    rw [if_neg h]
  · intro g h
    rw [computeSubgraphs_empty g initState h]
    rfl
  · intro g st hg hne
    obtain ⟨x, hx⟩ := List.exists_mem_of_ne_nil g.Nodes hne
    obtain ⟨_, P2, _, _, _, _⟩ := computeSubgraphs_master g st hg hne
    obtain ⟨s₀, hs₀, _⟩ := P2 x hx
    have hsorted := computeSubgraphs_sorted_scoreR g st hg hne
    rcases hcons : (computeSubgraphs g st).Subgraphs with _ | ⟨s, rest⟩
    · rw [hcons] at hs₀
      exact absurd hs₀ (List.not_mem_nil s₀)
    · refine ⟨s, rest, rfl, ?_, ?_⟩
      · unfold GetLargestSubgraph
        rw [hcons]
      · rw [hcons] at hsorted
        intro t ht
        rcases List.mem_cons.mp ht with h1 | h1
        · rw [h1]
        · exact (List.sorted_cons.mp hsorted).1 t h1

/-- C9 witness: the none cases and the largest-subgraph case instantiated on
concrete inputs. -/
theorem C9_queries_witness :
    GetSubgraphByID (computeSubgraphs gChain initState) 5 = none ∧
    GetNodeSubgraph gChain (computeSubgraphs gChain initState) "Z" = none ∧
    (∃ s rest, (computeSubgraphs gTriangle initState).Subgraphs = s :: rest ∧
      GetLargestSubgraph (computeSubgraphs gTriangle initState) = some s ∧
      ∀ t ∈ (computeSubgraphs gTriangle initState).Subgraphs,
        Subgraph.scoreR t ≤ Subgraph.scoreR s) :=
  ⟨C9_queries.1 (computeSubgraphs gChain initState) 5 (by decide),
   C9_queries.2.1 gChain (computeSubgraphs gChain initState) "Z" (by decide),
   C9_queries.2.2.2 gTriangle initState (by decide) (by decide)⟩

/-- C10: on every valid graph, the sum of `EdgeCount` over the computed
subgraphs equals `CountEdges` of the graph: every directed edge lies inside
exactly one component, since its endpoints are in the same component. -/
theorem C10_edge_conservation (g : DependencyGraph) (hg : ValidGraph g) :
    ((computeSubgraphs g initState).Subgraphs.map Subgraph.EdgeCount).sum =
      CountEdges g := by
  by_cases hne : g.Nodes = []
  · have hE : g.Edges = [] := by
      rcases hEc : g.Edges with _ | ⟨p, rest⟩
      · rfl
      · exfalso
        have hp := (hg.2.2 p (by rw [hEc]; exact List.mem_cons_self p rest)).1
        rw [hne] at hp
        exact absurd hp (List.not_mem_nil p.1)
    rw [computeSubgraphs_empty g initState hne, CountEdges_eq_sum, hE]
    rfl
  · obtain ⟨P1, P2, P3, _, _, _⟩ := computeSubgraphs_master g initState hg hne
    set subs := (computeSubgraphs g initState).Subgraphs with hsubs
    have step1 : subs.map Subgraph.EdgeCount =
        subs.map (fun s => (g.Edges.map (fun p => if p.1 ∈ s.NodeIDs then
          (p.2.filter (fun t => decide (t ∈ s.NodeIDs))).length else 0)).sum) := by
      refine List.map_congr_left ?_
      intro s hs
      obtain ⟨hnd, _, _, hec, _⟩ := P1 s hs
      rw [hec]
      exact countEdgesIn_entries g s.NodeIDs hnd hg.2.1
    rw [step1, sum_sum_swap (fun (s : Subgraph) (p : String × List String) =>
      if p.1 ∈ s.NodeIDs then
        (p.2.filter (fun t => decide (t ∈ s.NodeIDs))).length else 0) subs g.Edges]
    have step2 : g.Edges.map (fun p => (subs.map (fun s => if p.1 ∈ s.NodeIDs then
        (p.2.filter (fun t => decide (t ∈ s.NodeIDs))).length else 0)).sum) =
        g.Edges.map (fun p => p.2.length) := by
      refine List.map_congr_left ?_
      intro p hp
      obtain ⟨hp1, hp2⟩ := hg.2.2 p hp
      obtain ⟨s₀, hs₀, hp1s⟩ := P2 p.1 hp1
      obtain ⟨_, _, _, _, hclass⟩ := P1 s₀ hs₀
      refine sum_pick_unique p.1 p.2 subs P3 s₀ hs₀ hp1s ?_
      intro t ht
      refine (hclass p.1 hp1s t).mpr ?_
      exact Relation.ReflTransGen.single (Or.inl ⟨p, hp, rfl, ht⟩)
    rw [step2, CountEdges_eq_sum]

/-- C10 witness: edge conservation on the triangle graph. -/
theorem C10_edge_conservation_witness :
    ValidGraph gTriangle ∧
    ((computeSubgraphs gTriangle initState).Subgraphs.map Subgraph.EdgeCount).sum =
      CountEdges gTriangle :=
  ⟨by decide, C10_edge_conservation gTriangle (by decide)⟩


/-- C5 counterexample: when two loads of the same package are scanned (e.g. a
build-configuration variant), two distinct `types.Object`s map to the same
node id `P::f`, the two function declarations are processed with separate
`seenDeps` sets, and the edge list of `P::f` ends with a repeated target. -/
theorem C5_dedup_counterexample :
    (Analyze [pkgDup1, pkgDup2]).edges "P::f" = ["P::g", "P::g"] ∧
    ¬ ((Analyze [pkgDup1, pkgDup2]).edges "P::f").Nodup := by
  constructor
  · decide
  · decide

/-- C5 amended: after the dependency pass, no target in any source's edge list
equals the source id (no self-loops, unconditionally); and provided no two
processed function declarations resolve to the same source node id (the
per-declaration `seenDeps` set is only local to one declaration), every
source's target list is free of repeats. -/
theorem C5_resolver_edges (pkgs : List GoPackage) :
    (∀ s t, t ∈ (Analyze pkgs).edges s → t ≠ s) ∧
    ((sourceIDs (collectDefinitions newAnalyzerState pkgs).projectObjects pkgs).Nodup →
      ∀ s, ((Analyze pkgs).edges s).Nodup) := by
  have h1 := (collectDefinitions_inv pkgs newAnalyzerState).1
  constructor
  · intro s t ht
    have ht2 : t ∈ (analyzeDependencies (collectDefinitions newAnalyzerState pkgs)
        pkgs).edges s := ht
    refine analyze_edges_inv (collectDefinitions newAnalyzerState pkgs).projectObjects
      (fun s t => t ≠ s) (fun src o n _ h => h) pkgs
      (collectDefinitions newAnalyzerState pkgs) rfl ?_ s t ht2
    intro s' t' ht'
    rw [h1] at ht'
    exact absurd ht' (List.not_mem_nil t')
  · intro hnd s
    show ((analyzeDependencies (collectDefinitions newAnalyzerState pkgs)
        pkgs).edges s).Nodup
    refine analyzeDependencies_nodup
      (collectDefinitions newAnalyzerState pkgs).projectObjects pkgs
      (collectDefinitions newAnalyzerState pkgs) rfl ?_ ?_ hnd s
    · intro s'
      rw [h1]
      exact List.nodup_nil
    · intro s' _
      rw [h1]
      rfl

/-- C5 witness: on a single clean package load the source ids are distinct and
every edge list is repeat-free. -/
theorem C5_resolver_edges_witness :
    (sourceIDs (collectDefinitions newAnalyzerState [pkgDup1]).projectObjects
      [pkgDup1]).Nodup ∧
    ∀ s, ((Analyze [pkgDup1]).edges s).Nodup :=
  ⟨by decide, (C5_resolver_edges [pkgDup1]).2 (by decide)⟩

/-- C6: every target id in any edge list of the analyzed graph exists as a key
of the node map — the dependency pass only appends targets resolved through
`projectObjects`, whose node ids the collector has stored (even when a later
declaration overwrote an earlier node under the same id), and it never changes
the node map. -/
theorem C6_targets_exist (pkgs : List GoPackage) (s t : String)
    (ht : t ∈ (Analyze pkgs).edges s) : ((Analyze pkgs).nodes t).isSome := by
  have h1 := (collectDefinitions_inv pkgs newAnalyzerState).1
  have hfmt := (collectDefinitions_inv pkgs newAnalyzerState).2.2
    (fun o' n' h' => Option.noConfusion h')
  have hfrozen := (analyzeDependencies_frozen pkgs
    (collectDefinitions newAnalyzerState pkgs)).2
  have hnodes : (Analyze pkgs).nodes =
      (collectDefinitions newAnalyzerState pkgs).nodes := hfrozen
  rw [hnodes]
  have ht2 : t ∈ (analyzeDependencies (collectDefinitions newAnalyzerState pkgs)
      pkgs).edges s := ht
  refine analyze_edges_inv (collectDefinitions newAnalyzerState pkgs).projectObjects
    (fun _ t => ((collectDefinitions newAnalyzerState pkgs).nodes t).isSome)
    ?_ pkgs (collectDefinitions newAnalyzerState pkgs) rfl ?_ s t ht2
  · intro src o n hn _
    exact (hfmt o n hn).2
  · intro s' t' ht'
    rw [h1] at ht'
    exact absurd ht' (List.not_mem_nil t')

/-- C6 witness: the target `P::g` of the edge recorded for `P::f` is a key of
the node map. -/
theorem C6_targets_exist_witness :
    "P::g" ∈ (Analyze [pkgDup1]).edges "P::f" ∧
    ((Analyze [pkgDup1]).nodes "P::g").isSome :=
  ⟨by decide, C6_targets_exist [pkgDup1] "P::f" "P::g" (by decide)⟩

/-- C7 counterexample: a method on a generic type has an `ast.IndexExpr` under
the star of its receiver type, both arms of the Go formatting type switch
fail, and the collected node keeps the bare method name `M` — not
`(*ReceiverType).M` for any receiver type string, although the receiver is
by-reference. -/
theorem C7_method_name_counterexample :
    (collectDefinitions newAnalyzerState [pkgGeneric]).nodes "Q::M" =
      some { ID := "Q::M", Name := "M", Kind := NodeKind.method,
             Package := "Q", Signature := "func()" } ∧
    ∀ R : String, ("M" : String) ≠ "(*" ++ R ++ ")." ++ "M" := by
  constructor
  · decide
  · intro R h
    have hlen := congrArg String.length h
    have e1 : ("M" : String).length = 1 := by decide
    have e2 : ("(*" : String).length = 2 := by decide
    have e3 : ((")." : String)).length = 2 := by decide
    rw [String.length_append, String.length_append, String.length_append,
      e1, e2, e3] at hlen
    omega

/-- C7 amended: every collected definition's node id is its package path, the
separator `::`, and its display name; and the method-name formatting yields
`(*R).M` exactly when the receiver is a star over a plain identifier `R` and
`R.M` when it is a plain identifier `R` (any other receiver expression shape
keeps the bare name). -/
theorem C7_id_and_method_names :
    (∀ (pkgs : List GoPackage) (o : ℕ) (n : Node),
      (collectDefinitions newAnalyzerState pkgs).projectObjects o = some n →
      n.ID = n.Package ++ "::" ++ n.Name) ∧
    (∀ (a : AnalyzerState) (pkgPath : String) (o : ℕ) (fname : String)
        (recv : RecvExpr) (sig : String) (uses : List ℕ),
      (collectDecl a pkgPath
        (.funcDecl (some o) fname (some recv) sig uses)).projectObjects o =
        some (CreateNode pkgPath (formatMethodName fname recv)
          NodeKind.method sig)) ∧
    (∀ (base rn : String),
      formatMethodName base (.star (.ident rn)) = "(*" ++ rn ++ ")." ++ base ∧
      formatMethodName base (.ident rn) = rn ++ "." ++ base) := by
  refine ⟨?_, ?_, ?_⟩
  · intro pkgs o n h
    exact ((collectDefinitions_inv pkgs newAnalyzerState).2.2
      (fun o' n' h' => Option.noConfusion h') o n h).1
  · intro a pkgPath o fname recv sig uses
    show (if o = o then
        some (CreateNode pkgPath (formatMethodName fname recv) NodeKind.method sig)
      else a.projectObjects o) =
      some (CreateNode pkgPath (formatMethodName fname recv) NodeKind.method sig)
    rw [if_pos rfl]
  · intro base rn
    exact ⟨rfl, rfl⟩

/-- C7 witness: the id format instantiated on the collected definition of
`func f` in package `P`. -/
theorem C7_id_and_method_names_witness :
    (collectDefinitions newAnalyzerState [pkgDup1]).projectObjects 0 =
      some { ID := "P::f", Name := "f", Kind := NodeKind.function,
             Package := "P", Signature := "func()" } ∧
    ("P::f" : String) = "P" ++ "::" ++ "f" :=
  ⟨by decide, C7_id_and_method_names.1 [pkgDup1] 0
    { ID := "P::f", Name := "f", Kind := NodeKind.function,
      Package := "P", Signature := "func()" } (by decide)⟩

end DepMap
